import Mathlib

set_option linter.unusedSectionVars false

/-!
Verification of the `cache` repository: a bounded LRU cache with TTL and
per-key single-flight resolution (`lru.go`).

The Go source is embedded shallowly:

* `lruNode` (lru.go 126-135) becomes the structure `lruNode`; the `sync.Once`
  guard becomes the Boolean field `once` (fired or not), the Go `error` field
  becomes `Option (CErr E)`, and `time.Time` / `time.Duration` become `Int`
  (nanoseconds).
* the Go map `nodes map[K]*lruNode` becomes an association list
  `List (K × lruNode K V E)` with Go-map lookup/assign/delete semantics;
* the intrusive circular list becomes, at the cache level, the list of the
  keys of its nodes in ring order starting after the sentinel (head = most
  recently used).  The pointer-level ring and its operations `addTo`,
  `remove`, `purge`, `mtf` (lru.go 138-168) are embedded separately and
  literally in the `Ring` development below, where the list-of-ids
  abstraction used here is proved sound for each operation.
* the backend is a parameter `backend : Nat → K → BRes V E` giving the
  outcome of the `i`-th backend invocation of a run; `BRes.fault` models the
  backend panicking.  `Get` returning `none` models the panic being re-raised
  to the caller.
* concurrency: the mutex-protected section `get` is one atomic step, and the
  `sync.Once` single-flight protocol is modelled as an interleaving machine
  in the `SingleFlight` section below.
-/

namespace Cache

/-- Model of the Go `error` values observable from the cache: either a failure
value produced by the backend (`user e`), or the generic error manufactured by
`Get`'s recover handler, `errors.New ("backend function panicked")`, which is a
fresh error value distinct from every backend-produced one. -/
inductive CErr (E : Type) where
  | user (e : E)
  | panicked
deriving DecidableEq, Repr

/-- Outcome of one backend invocation: a normal return of `(value, error)`
(`error` possibly nil), or a Go panic (`fault`). -/
inductive BRes (V E : Type) where
  | ok (v : V) (e : Option E)
  | fault
deriving DecidableEq, Repr

/-- Shallow embedding of `lruNode` (lru.go 126-135).  `once` records whether
the node's `sync.Once` has fired; `value` and `err` are the recorded result
(zero / nil before the once fires); `ts` is the creation timestamp. -/
structure lruNode (K V E : Type) where
  once : Bool
  key : K
  value : V
  err : Option (CErr E)
  ts : Int
deriving DecidableEq, Repr

/-- Go map read `m[key]` (nil if absent). -/
def lookupNode {K N : Type} [DecidableEq K] : List (K × N) → K → Option N
  | [], _ => none
  | (k, n) :: m, key => if k = key then some n else lookupNode m key

/-- Go map assignment `m[key] = n` (replaces an existing binding). -/
def insertNode {K N : Type} [DecidableEq K] : List (K × N) → K → N → List (K × N)
  | [], key, n => [(key, n)]
  | (k, x) :: m, key, n =>
      if k = key then (key, n) :: m else (k, x) :: insertNode m key n

/-- Go map deletion `delete(m, key)`. -/
def eraseNode {K N : Type} [DecidableEq K] : List (K × N) → K → List (K × N)
  | [], _ => []
  | (k, x) :: m, key =>
      if k = key then eraseNode m key else (k, x) :: eraseNode m key

/-- Shallow embedding of the `LRU` structure (lru.go 14-22).  `list` is the
eviction ring read off from the sentinel's successor onwards: head = most
recently used, last = least recently used (`c.list.prev` in the source).
The `backend` function and the mutex are not state; the backend is passed to
`Get` explicitly and the mutex-protected section is one atomic step. -/
structure LRU (K V E : Type) where
  nodes : List (K × lruNode K V E)
  list : List K
  size : Nat
  ttl : Int
deriving DecidableEq, Repr

/-- `maxCacheSize` (lru.go 11). -/
def maxCacheSize : Int := 64 * 1024 * 1024

/-- The substitute TTL for `ttl == 0`: `50 * 365 * 24 * time.Hour` in
nanoseconds (lru.go 41). -/
def foreverTTL : Int := 50 * 365 * 24 * 3600 * 1000000000

/-- Shallow embedding of `New` (lru.go 25-60).  Go reports invalid parameters
by panicking; the panic with its message is modelled as `Except.error`.  A nil
backend function is modelled by `haveBackend = false` (the backend itself is
not part of the state).  The checks run in source order: capacity, then TTL,
then backend. -/
def New (K V E : Type) (size ttl : Int) (haveBackend : Bool) :
    Except String (LRU K V E) :=
  if size < 2 ∨ maxCacheSize < size then
    .error ("attempt to create an LRU cache with invalid capacity of " ++
      toString size ++ " items")
  else if ttl < 0 then
    .error "attempt to create an LRU cache with negative TTL"
  else
    let ttl := if ttl = 0 then foreverTTL else ttl
    if haveBackend then
      .ok { nodes := [], list := [], size := size.toNat, ttl := ttl }
    else
      .error "attempt to create an LRU cache with nil backend function"

/-- `mtf` at the abstraction of the ring as its key list (lru.go 163-168):
a no-op when the node is already `root.next` (the head), otherwise remove and
re-add at the head. -/
def listMtf {K : Type} [DecidableEq K] (key : K) (l : List K) : List K :=
  if l.head? = some key then l else key :: l.erase key

/-- The common tail of `get` (lru.go 116-122): allocate a fresh node with
`ts = now`, link it at the head of the ring (`addTo`), store it in the map. -/
def LRU.addNode {K V E : Type} [DecidableEq K] [Inhabited V]
    (c : LRU K V E) (now : Int) (key : K) : LRU K V E × lruNode K V E :=
  let node : lruNode K V E :=
    { once := false, key := key, value := default, err := none, ts := now }
  ({ c with list := key :: c.list, nodes := insertNode c.nodes key node }, node)

/-- Shallow embedding of the mutex-protected `get` (lru.go 92-123), one atomic
step.  `now` is the current time (`time.Since(node.ts) < c.ttl` becomes
`now - node.ts < c.ttl`).  On a hit the node is promoted (`mtf`) and returned;
on an expired hit the node is purged from the ring (its map entry is simply
overwritten, as in the source); on a miss with the cache full the tail node
(`c.list.prev`) is deleted from both structures.  The `none` branch of
`getLast?` is unreachable for a well-formed cache (`size ≥ 2` forces a
non-empty ring whenever `size ≤ |nodes|`). -/
def LRU.get {K V E : Type} [DecidableEq K] [Inhabited V]
    (c : LRU K V E) (now : Int) (key : K) : LRU K V E × lruNode K V E :=
  match lookupNode c.nodes key with
  | some node =>
      if now - node.ts < c.ttl then
        ({ c with list := listMtf key c.list }, node)
      else
        LRU.addNode { c with list := c.list.erase key } now key
  | none =>
      if c.size ≤ c.nodes.length then
        match c.list.getLast? with
        | some lastKey =>
            LRU.addNode
              { c with nodes := eraseNode c.nodes lastKey,
                       list := c.list.erase lastKey } now key
        | none => LRU.addNode c now key
      else
        LRU.addNode c now key

/-- Shallow embedding of `Get` (lru.go 74-89).  After the locked `get` step,
`node.once.Do` runs the backend at most once: if the once has fired, the
recorded result is returned with no backend call; otherwise the backend is
invoked (this is invocation number `ncalls` of the run) and its result is
recorded into the node.  A backend panic is caught by the deferred recover,
which records the generic failure and re-raises: the `none` result models the
re-raised panic reaching the caller.  The third component lists the keys the
backend was invoked on during this call (`[]` or `[node.key]`). -/
def LRU.Get {K V E : Type} [DecidableEq K] [Inhabited V]
    (c : LRU K V E) (now : Int) (key : K)
    (backend : Nat → K → BRes V E) (ncalls : Nat) :
    LRU K V E × Option (V × Option (CErr E)) × List K :=
  let s := c.get now key
  let node := s.2
  if node.once then
    (s.1, some (node.value, node.err), [])
  else
    match backend ncalls node.key with
    | .ok v e =>
        let node' : lruNode K V E :=
          { node with once := true, value := v, err := e.map CErr.user }
        ({ s.1 with nodes := insertNode s.1.nodes key node' },
          some (v, e.map CErr.user), [node.key])
    | .fault =>
        let node' : lruNode K V E :=
          { node with once := true, err := some CErr.panicked }
        ({ s.1 with nodes := insertNode s.1.nodes key node' },
          none, [node.key])

/-- Shallow embedding of `Delete` (lru.go 63-71): under the mutex, if the key
is present remove its node from the map and purge it from the ring; otherwise
do nothing. -/
def LRU.Delete {K V E : Type} [DecidableEq K]
    (c : LRU K V E) (key : K) : LRU K V E :=
  match lookupNode c.nodes key with
  | some _ => { c with nodes := eraseNode c.nodes key, list := c.list.erase key }
  | none => c

/-- Run a sequence of `Get` calls (all at time `now`), threading the backend
invocation counter and collecting the invocation trace. -/
def LRU.runGets {K V E : Type} [DecidableEq K] [Inhabited V]
    (backend : Nat → K → BRes V E) :
    LRU K V E → Int → List K → Nat → LRU K V E × List K
  | c, _, [], _ => (c, [])
  | c, now, k :: ks, i =>
      let s := c.Get now k backend i
      let r := LRU.runGets backend s.1 now ks (i + s.2.2.length)
      (r.1, s.2.2 ++ r.2)

/-- Structural well-formedness (spec §3 invariants 1-2): key table and
eviction ring hold the same keys in one-to-one correspondence, at most
`size` of them, each node recording its own key; `size ≥ 2` as established
by `New`. -/
def LRU.Wf {K V E : Type} [DecidableEq K] (c : LRU K V E) : Prop :=
  2 ≤ c.size ∧
  c.list.Nodup ∧
  (c.nodes.map Prod.fst).Perm c.list ∧
  c.list.length ≤ c.size ∧
  ∀ p ∈ c.nodes, (p.2).key = p.1

instance {K V E : Type} [DecidableEq K] (c : LRU K V E) :
    Decidable c.Wf := by
  unfold LRU.Wf; infer_instance

/-! ### Association-list (Go map) lemmas -/

theorem lookup_insert_self {K N : Type} [DecidableEq K]
    (m : List (K × N)) (key : K) (n : N) :
    lookupNode (insertNode m key n) key = some n := by
  induction m with
  | nil => simp [insertNode, lookupNode]
  | cons p m ih =>
      obtain ⟨k, x⟩ := p
      by_cases h : k = key
      · subst h; simp [insertNode, lookupNode]
      · simp [insertNode, lookupNode, h, ih]

theorem lookup_insert_ne {K N : Type} [DecidableEq K]
    (m : List (K × N)) (key k' : K) (n : N) (h : k' ≠ key) :
    lookupNode (insertNode m key n) k' = lookupNode m k' := by
  induction m with
  | nil => simp [insertNode, lookupNode, Ne.symm h]
  | cons p m ih =>
      obtain ⟨k, x⟩ := p
      by_cases hk : k = key
      · subst hk
        simp [insertNode, lookupNode, Ne.symm h]
      · simp only [insertNode, if_neg hk]
        by_cases hk' : k = k'
        · subst hk'
          simp [lookupNode]
        · simp [lookupNode, hk', ih]

theorem lookup_erase {K N : Type} [DecidableEq K]
    (m : List (K × N)) (a k : K) :
    lookupNode (eraseNode m a) k = if k = a then none else lookupNode m k := by
  induction m with
  | nil => simp [eraseNode, lookupNode]
  | cons p m ih =>
      obtain ⟨k', x⟩ := p
      by_cases h : k' = a <;> by_cases hk : k' = k
      · subst h; subst hk
        simp [eraseNode, ih]
      · subst h
        have hk2 : ¬k = k' := fun e => hk e.symm
        simp [eraseNode, ih, lookupNode, hk, hk2]
      · subst hk
        simp [eraseNode, h, lookupNode]
      · simp [eraseNode, h, lookupNode, hk, ih]

theorem keys_insert_of_lookup_some {K N : Type} [DecidableEq K]
    (m : List (K × N)) (key : K) (n : N) (h : (lookupNode m key).isSome) :
    (insertNode m key n).map Prod.fst = m.map Prod.fst := by
  induction m with
  | nil => simp [lookupNode] at h
  | cons p m ih =>
      obtain ⟨k, x⟩ := p
      by_cases hk : k = key
      · subst hk; simp [insertNode]
      · simp [lookupNode, hk] at h
        simp [insertNode, hk, ih h]

theorem keys_insert_of_lookup_none {K N : Type} [DecidableEq K]
    (m : List (K × N)) (key : K) (n : N) (h : lookupNode m key = none) :
    (insertNode m key n).map Prod.fst = m.map Prod.fst ++ [key] := by
  induction m with
  | nil => simp [insertNode]
  | cons p m ih =>
      obtain ⟨k, x⟩ := p
      by_cases hk : k = key
      · subst hk; simp [lookupNode] at h
      · simp [lookupNode, hk] at h
        simp [insertNode, hk, ih h]

theorem keys_erase {K N : Type} [DecidableEq K]
    (m : List (K × N)) (a : K) :
    (eraseNode m a).map Prod.fst = (m.map Prod.fst).filter (· ≠ a) := by
  induction m with
  | nil => simp [eraseNode]
  | cons p m ih =>
      obtain ⟨k, x⟩ := p
      by_cases h : k = a
      · subst h; simp [eraseNode, ih]
      · simp [eraseNode, h, ih]

theorem mem_insert_cases {K N : Type} [DecidableEq K]
    {m : List (K × N)} {key : K} {n : N} {p : K × N}
    (h : p ∈ insertNode m key n) : p = (key, n) ∨ p ∈ m := by
  induction m with
  | nil => simpa [insertNode] using h
  | cons q m ih =>
      obtain ⟨k, x⟩ := q
      by_cases hk : k = key
      · subst hk
        simp only [insertNode, if_pos rfl] at h
        rcases List.mem_cons.mp h with h | h
        · exact Or.inl h
        · exact Or.inr (List.mem_cons_of_mem _ h)
      · simp only [insertNode, if_neg hk] at h
        rcases List.mem_cons.mp h with h | h
        · exact Or.inr (h ▸ List.mem_cons_self _ _)
        · rcases ih h with h | h
          · exact Or.inl h
          · exact Or.inr (List.mem_cons_of_mem _ h)

theorem mem_of_mem_erase {K N : Type} [DecidableEq K]
    {m : List (K × N)} {a : K} {p : K × N}
    (h : p ∈ eraseNode m a) : p ∈ m := by
  induction m with
  | nil => simp [eraseNode] at h
  | cons q m ih =>
      obtain ⟨k, x⟩ := q
      by_cases hk : k = a
      · subst hk
        simp only [eraseNode, if_pos rfl] at h
        exact List.mem_cons_of_mem _ (ih h)
      · simp only [eraseNode, if_neg hk] at h
        rcases List.mem_cons.mp h with h | h
        · exact h ▸ List.mem_cons_self _ _
        · exact List.mem_cons_of_mem _ (ih h)

theorem lookup_eq_some_mem {K N : Type} [DecidableEq K]
    {m : List (K × N)} {k : K} {n : N}
    (h : lookupNode m k = some n) : (k, n) ∈ m := by
  induction m with
  | nil => simp [lookupNode] at h
  | cons p m ih =>
      obtain ⟨k', x⟩ := p
      by_cases hk : k' = k
      · subst hk
        simp only [lookupNode, if_true, eq_self_iff_true, Option.some.injEq] at h
        subst h
        exact List.mem_cons_self _ _
      · simp only [lookupNode, if_neg hk] at h
        exact List.mem_cons_of_mem _ (ih h)

theorem lookup_isSome_iff_mem_keys {K N : Type} [DecidableEq K]
    (m : List (K × N)) (k : K) :
    (lookupNode m k).isSome ↔ k ∈ m.map Prod.fst := by
  induction m with
  | nil => simp [lookupNode]
  | cons p m ih =>
      obtain ⟨k', x⟩ := p
      by_cases hk : k' = k
      · subst hk; simp [lookupNode]
      · simp [lookupNode, hk, ih, Ne.symm hk]

/-! ### Path equations for `get` -/

theorem erase_eq_filter_ne {α : Type} [DecidableEq α]
    (l : List α) (d : l.Nodup) (a : α) : l.erase a = l.filter (· ≠ a) := by
  rw [d.erase_eq_filter]
  exact List.filter_congr (fun x _ => by simp [bne, instBEqOfDecidableEq])

variable {K V E : Type} [DecidableEq K] [Inhabited V]

theorem get_hit (c : LRU K V E) (now : Int) (key : K) (node : lruNode K V E)
    (hl : lookupNode c.nodes key = some node) (hf : now - node.ts < c.ttl) :
    c.get now key = ({ c with list := listMtf key c.list }, node) := by
  unfold LRU.get
  rw [hl]
  simp [hf]

theorem get_expired (c : LRU K V E) (now : Int) (key : K) (node : lruNode K V E)
    (hl : lookupNode c.nodes key = some node) (hf : ¬now - node.ts < c.ttl) :
    c.get now key = LRU.addNode { c with list := c.list.erase key } now key := by
  unfold LRU.get
  rw [hl]
  simp [hf]

theorem get_miss_room (c : LRU K V E) (now : Int) (key : K)
    (hl : lookupNode c.nodes key = none) (hr : ¬c.size ≤ c.nodes.length) :
    c.get now key = LRU.addNode c now key := by
  unfold LRU.get
  rw [hl]
  simp [hr]

theorem get_miss_full (c : LRU K V E) (now : Int) (key : K) (lastKey : K)
    (hl : lookupNode c.nodes key = none) (hr : c.size ≤ c.nodes.length)
    (hlast : c.list.getLast? = some lastKey) :
    c.get now key =
      LRU.addNode
        { c with nodes := eraseNode c.nodes lastKey,
                 list := c.list.erase lastKey } now key := by
  unfold LRU.get
  rw [hl]
  simp [hr, hlast]

/-! ### Well-formedness preservation -/

theorem wf_keys_nodup {c : LRU K V E} (hw : c.Wf) :
    (c.nodes.map Prod.fst).Nodup :=
  hw.2.2.1.nodup_iff.mpr hw.2.1

theorem wf_mem_list_iff {c : LRU K V E} (hw : c.Wf) (key : K) :
    key ∈ c.list ↔ (lookupNode c.nodes key).isSome := by
  rw [lookup_isSome_iff_mem_keys]
  exact (hw.2.2.1.mem_iff).symm

theorem wf_node_key {c : LRU K V E} (hw : c.Wf) {key : K} {node : lruNode K V E}
    (hl : lookupNode c.nodes key = some node) : node.key = key :=
  hw.2.2.2.2 _ (lookup_eq_some_mem hl)

theorem wf_length_nodes {c : LRU K V E} (hw : c.Wf) :
    c.nodes.length = c.list.length := by
  have := hw.2.2.1.length_eq
  simpa using this

/-- The hit path (fresh node): promoting a resident key preserves
well-formedness, and `mtf` turns the ring into `key :: erase key`
(also literally when the key is already at the head). -/
theorem listMtf_eq_cons_erase {l : List K} (hd : l.Nodup) {key : K}
    (hm : key ∈ l) : listMtf key l = key :: l.erase key := by
  unfold listMtf
  by_cases hh : l.head? = some key
  · rw [if_pos hh]
    cases l with
    | nil => simp at hm
    | cons a l =>
        simp only [List.head?_cons, Option.some.injEq] at hh
        subst hh
        simp
  · rw [if_neg hh]

theorem wf_promote {c : LRU K V E} (hw : c.Wf) {key : K} (hm : key ∈ c.list) :
    LRU.Wf { c with list := key :: c.list.erase key } := by
  obtain ⟨hsz, hnd, hperm, hlen, hkeys⟩ := hw
  have hperm' : c.list.Perm (key :: c.list.erase key) := List.perm_cons_erase hm
  refine ⟨hsz, ?_, ?_, ?_, hkeys⟩
  · exact hperm'.nodup_iff.mp hnd
  · exact hperm.trans hperm'
  · simpa [hperm'.length_eq.symm] using hlen

theorem wf_get {c : LRU K V E} (hw : c.Wf) (now : Int) (key : K) :
    ((c.get now key).1).Wf := by
  have hsz := hw.1
  have hnd := hw.2.1
  have hperm := hw.2.2.1
  have hlen := hw.2.2.2.1
  have hkeys := hw.2.2.2.2
  cases hl : lookupNode c.nodes key with
  | some node =>
      have hm : key ∈ c.list := (wf_mem_list_iff hw key).mpr (by simp [hl])
      by_cases hf : now - node.ts < c.ttl
      · rw [get_hit c now key node hl hf]
        simp only [listMtf_eq_cons_erase hnd hm]
        exact wf_promote hw hm
      · rw [get_expired c now key node hl hf]
        have hperm' : c.list.Perm (key :: c.list.erase key) :=
          List.perm_cons_erase hm
        refine ⟨hsz, ?_, ?_, ?_, ?_⟩
        · exact hperm'.nodup_iff.mp hnd
        · simp only [LRU.addNode]
          rw [keys_insert_of_lookup_some _ _ _ (by simp [hl])]
          exact hperm.trans hperm'
        · simpa [LRU.addNode, hperm'.length_eq.symm] using hlen
        · simp only [LRU.addNode]
          intro p hp
          rcases mem_insert_cases hp with h | h
          · subst h; rfl
          · exact hkeys p h
  | none =>
      have hm : key ∉ c.list := by
        rw [wf_mem_list_iff hw key, hl]
        simp
      by_cases hr : c.size ≤ c.nodes.length
      · -- cache full: the ring is non-empty, so the tail exists
        have hlist_ne : c.list ≠ [] := by
          intro h
          rw [wf_length_nodes hw, h] at hr
          simp at hr
          omega
        cases hlast : c.list.getLast? with
        | none => exact absurd (List.getLast?_eq_none_iff.mp hlast) hlist_ne
        | some lastKey =>
            rw [get_miss_full c now key lastKey hl hr hlast]
            have hmemLast : lastKey ∈ c.list := List.mem_of_mem_getLast? hlast
            refine ⟨hsz, ?_, ?_, ?_, ?_⟩
            · simp only [LRU.addNode, List.nodup_cons]
              exact ⟨fun h => hm (List.mem_of_mem_erase h), hnd.erase lastKey⟩
            · simp only [LRU.addNode]
              rw [keys_insert_of_lookup_none]
              · rw [keys_erase, erase_eq_filter_ne c.list hnd lastKey]
                have := (hperm.filter (· ≠ lastKey)).append_right [key]
                exact this.trans List.perm_append_comm
              · rw [lookup_erase]
                split <;> simp [hl]
            · simp only [LRU.addNode, List.length_cons]
              rw [List.length_erase_of_mem hmemLast]
              have h1 : 0 < c.list.length := List.length_pos.mpr hlist_ne
              omega
            · simp only [LRU.addNode]
              intro p hp
              rcases mem_insert_cases hp with h | h
              · subst h; rfl
              · exact hkeys p (mem_of_mem_erase h)
      · rw [get_miss_room c now key hl hr]
        refine ⟨hsz, ?_, ?_, ?_, ?_⟩
        · simp only [LRU.addNode, List.nodup_cons]
          exact ⟨hm, hnd⟩
        · simp only [LRU.addNode]
          rw [keys_insert_of_lookup_none _ _ _ hl]
          exact (hperm.append_right [key]).trans List.perm_append_comm
        · simp only [LRU.addNode, List.length_cons]
          rw [wf_length_nodes hw] at hr
          omega
        · simp only [LRU.addNode]
          intro p hp
          rcases mem_insert_cases hp with h | h
          · subst h; rfl
          · exact hkeys p h

theorem get_miss_full_empty (c : LRU K V E) (now : Int) (key : K)
    (hl : lookupNode c.nodes key = none) (hr : c.size ≤ c.nodes.length)
    (hlast : c.list.getLast? = none) :
    c.get now key = LRU.addNode c now key := by
  unfold LRU.get
  rw [hl]
  simp [hr, hlast]

/-- The node handed back by `get` is always the node stored at `key` in the
map afterwards (it was either found there or just inserted there). -/
theorem get_lookup_self (c : LRU K V E) (now : Int) (key : K) :
    lookupNode ((c.get now key).1).nodes key = some ((c.get now key).2) := by
  cases hl : lookupNode c.nodes key with
  | some node =>
      by_cases hf : now - node.ts < c.ttl
      · rw [get_hit c now key node hl hf]
        exact hl
      · rw [get_expired c now key node hl hf]
        exact lookup_insert_self _ _ _
  | none =>
      by_cases hr : c.size ≤ c.nodes.length
      · cases hlast : c.list.getLast? with
        | some lastKey =>
            rw [get_miss_full c now key lastKey hl hr hlast]
            exact lookup_insert_self _ _ _
        | none =>
            rw [get_miss_full_empty c now key hl hr hlast]
            exact lookup_insert_self _ _ _
      · rw [get_miss_room c now key hl hr]
        exact lookup_insert_self _ _ _

/-- The node handed back by `get` carries the requested key. -/
theorem get_node_key {c : LRU K V E} (hw : c.Wf) (now : Int) (key : K) :
    ((c.get now key).2).key = key := by
  cases hl : lookupNode c.nodes key with
  | some node =>
      by_cases hf : now - node.ts < c.ttl
      · rw [get_hit c now key node hl hf]
        exact wf_node_key hw hl
      · rw [get_expired c now key node hl hf]
        rfl
  | none =>
      by_cases hr : c.size ≤ c.nodes.length
      · cases hlast : c.list.getLast? with
        | some lastKey =>
            rw [get_miss_full c now key lastKey hl hr hlast]
            rfl
        | none =>
            rw [get_miss_full_empty c now key hl hr hlast]
            rfl
      · rw [get_miss_room c now key hl hr]
        rfl

/-- Overwriting the node stored at a present key (what the resolution phase of
`Get` does) preserves well-formedness. -/
theorem wf_insert_replace {c : LRU K V E} (hw : c.Wf) {key : K}
    {node node' : lruNode K V E}
    (hl : lookupNode c.nodes key = some node) (hk : node'.key = key) :
    LRU.Wf { c with nodes := insertNode c.nodes key node' } := by
  refine ⟨hw.1, hw.2.1, ?_, hw.2.2.2.1, ?_⟩
  · rw [keys_insert_of_lookup_some _ _ _ (by simp [hl])]
    exact hw.2.2.1
  · intro p hp
    rcases mem_insert_cases hp with h | h
    · subst h; exact hk
    · exact hw.2.2.2.2 p h

theorem wf_Get {c : LRU K V E} (hw : c.Wf) (now : Int) (key : K)
    (backend : Nat → K → BRes V E) (i : Nat) :
    ((c.Get now key backend i).1).Wf := by
  have h1 := wf_get hw now key
  have h2 := get_lookup_self c now key
  have h3 := get_node_key hw now key
  by_cases ho : (c.get now key).2.once
  · have he : (c.Get now key backend i).1 = (c.get now key).1 := by
      unfold LRU.Get
      simp [ho]
    rw [he]
    exact h1
  · cases hb : backend i (c.get now key).2.key with
    | ok v e =>
        have he : (c.Get now key backend i).1 =
            { (c.get now key).1 with
              nodes := insertNode ((c.get now key).1).nodes key
                { (c.get now key).2 with
                  once := true, value := v, err := e.map CErr.user } } := by
          unfold LRU.Get
          simp [ho, hb]
        rw [he]
        exact wf_insert_replace h1 h2 (by simpa using h3)
    | fault =>
        have he : (c.Get now key backend i).1 =
            { (c.get now key).1 with
              nodes := insertNode ((c.get now key).1).nodes key
                { (c.get now key).2 with
                  once := true, err := some CErr.panicked } } := by
          unfold LRU.Get
          simp [ho, hb]
        rw [he]
        exact wf_insert_replace h1 h2 (by simpa using h3)

theorem wf_Delete {c : LRU K V E} (hw : c.Wf) (key : K) : (c.Delete key).Wf := by
  unfold LRU.Delete
  cases hl : lookupNode c.nodes key with
  | none => exact hw
  | some node =>
      refine ⟨hw.1, hw.2.1.erase key, ?_, ?_, ?_⟩
      · rw [keys_erase, erase_eq_filter_ne c.list hw.2.1 key]
        exact hw.2.2.1.filter _
      · exact le_trans (List.Sublist.length_le (List.erase_sublist _ _)) hw.2.2.2.1
      · intro p hp
        exact hw.2.2.2.2 p (mem_of_mem_erase hp)

theorem wf_New {K V E : Type} [DecidableEq K] (size ttl : Int) (c : LRU K V E)
    (h : New K V E size ttl true = .ok c) : c.Wf := by
  unfold New at h
  by_cases h1 : size < 2 ∨ maxCacheSize < size
  · simp [h1] at h
  · by_cases h2 : ttl < 0
    · simp [h1, h2] at h
    · simp only [h1, h2, if_false, if_true] at h
      obtain rfl := Except.ok.inj h
      push_neg at h1
      refine ⟨by simp only; omega, by simp, by simp, by simp, by simp⟩

theorem Delete_present (c : LRU K V E) (key : K) (node : lruNode K V E)
    (hl : lookupNode c.nodes key = some node) :
    c.Delete key =
      { c with nodes := eraseNode c.nodes key, list := c.list.erase key } := by
  unfold LRU.Delete
  rw [hl]

theorem Delete_absent (c : LRU K V E) (key : K)
    (hl : lookupNode c.nodes key = none) : c.Delete key = c := by
  unfold LRU.Delete
  rw [hl]

-- sanity checks on concrete runs (capacity 2, ttl 1, keys and values Nat)
def natBackend : Nat → Nat → BRes Nat Nat := fun _ k => .ok (k + 100) none

def c0 : LRU Nat Nat Nat := { nodes := [], list := [], size := 2, ttl := 1 }

example : (LRU.runGets natBackend c0 0 [1, 2, 3] 0).2 = [1, 2, 3] := by decide
example : (LRU.runGets natBackend c0 0 [1, 2, 3] 0).1.list = [3, 2] := by decide
example : (LRU.runGets natBackend c0 0 [1, 2, 3, 1] 0).2 = [1, 2, 3, 1] := by
  decide
example : (LRU.runGets natBackend c0 0 [1, 2, 1, 3] 0).2 = [1, 2, 3] := by
  decide
example : (LRU.runGets natBackend c0 0 [1, 2, 3, 1] 0).1.list = [1, 3] := by
  decide
example : (c0.Get 0 5 natBackend 0).2.1 = some (105, none) := by decide
example : ((c0.Get 0 5 natBackend 0).1.Delete 5).nodes = [] := by decide
example : (c0.Delete 7) = c0 := by decide

/-- A concrete cache with key 5 resident and resolved (capacity 2, ttl 1). -/
def cP : LRU Nat Nat Nat := (c0.Get 0 5 natBackend 0).1

/-! ## Claim C5 -/

/-- C5: whenever the structural guard is not held, the key table and the
eviction ring hold exactly the same entries in one-to-one correspondence
(`LRU.Wf`: their key sequences are a permutation of each other, without
duplicates), there are at most `capacity` of them, and every stored node
satisfies `node.key = k`; `New` establishes this invariant and every `Get`
and every `Delete` preserves it. -/
theorem C5_structural_invariant {K V E : Type} [DecidableEq K] [Inhabited V]
    (c : LRU K V E) (hw : c.Wf) (now : Int) (key : K)
    (backend : Nat → K → BRes V E) (i : Nat)
    (size ttl : Int) (c' : LRU K V E) (hc' : New K V E size ttl true = .ok c') :
    ((c.Get now key backend i).1).Wf ∧ (c.Delete key).Wf ∧ c'.Wf :=
  ⟨wf_Get hw now key backend i, wf_Delete hw key, wf_New size ttl c' hc'⟩

theorem C5_structural_invariant_witness :
    c0.Wf ∧
      (((c0.Get 0 7 natBackend 0).1).Wf ∧ (c0.Delete 7).Wf ∧ c0.Wf) :=
  ⟨by decide,
    C5_structural_invariant c0 (by decide) 0 7 natBackend 0 2 1 c0 (by rfl)⟩

/-! ## Claim C6 -/

/-- C6: `New` fails fast (no cache value is produced) exactly when
`size < 2`, `size > 64*1024*1024`, `ttl < 0`, or the backend is nil, and the
error message identifies the violated constraint (capacity, TTL, or backend
respectively, checked in that order).  Otherwise it returns an empty,
well-formed cache whose effective TTL is the requested one, except that
`ttl = 0` is replaced by the fixed 50-year duration `foreverTTL`. -/
theorem C6_new_validation {K V E : Type} [DecidableEq K]
    (size ttl : Int) (hb : Bool) :
    ((∃ msg, New K V E size ttl hb = .error msg) ↔
        size < 2 ∨ maxCacheSize < size ∨ ttl < 0 ∨ hb = false) ∧
    (∀ c, New K V E size ttl hb = .ok c →
        c.nodes = [] ∧ c.list = [] ∧ c.size = size.toNat ∧
        c.ttl = (if ttl = 0 then foreverTTL else ttl) ∧ c.Wf) ∧
    (size < 2 ∨ maxCacheSize < size →
        New K V E size ttl hb = .error
          ("attempt to create an LRU cache with invalid capacity of " ++
            toString size ++ " items")) ∧
    (¬(size < 2 ∨ maxCacheSize < size) → ttl < 0 →
        New K V E size ttl hb = .error
          "attempt to create an LRU cache with negative TTL") ∧
    (¬(size < 2 ∨ maxCacheSize < size) → ¬ttl < 0 → hb = false →
        New K V E size ttl hb = .error
          "attempt to create an LRU cache with nil backend function") := by
  have e1 : size < 2 ∨ maxCacheSize < size →
      New K V E size ttl hb = .error
        ("attempt to create an LRU cache with invalid capacity of " ++
          toString size ++ " items") := fun h => by
    unfold New
    rw [if_pos h]
  have e2 : ¬(size < 2 ∨ maxCacheSize < size) → ttl < 0 →
      New K V E size ttl hb = .error
        "attempt to create an LRU cache with negative TTL" := fun h1 h2 => by
    unfold New
    rw [if_neg h1, if_pos h2]
  have e3 : ¬(size < 2 ∨ maxCacheSize < size) → ¬ttl < 0 → hb = false →
      New K V E size ttl hb = .error
        "attempt to create an LRU cache with nil backend function" :=
    fun h1 h2 h3 => by
      unfold New
      rw [if_neg h1, if_neg h2]
      subst h3
      simp
  have ok1 : ∀ c, New K V E size ttl hb = .ok c →
      c.nodes = [] ∧ c.list = [] ∧ c.size = size.toNat ∧
      c.ttl = (if ttl = 0 then foreverTTL else ttl) ∧ c.Wf := by
    intro c hc
    by_cases h1 : size < 2 ∨ maxCacheSize < size
    · rw [e1 h1] at hc
      simp at hc
    · by_cases h2 : ttl < 0
      · rw [e2 h1 h2] at hc
        simp at hc
      · cases hb with
        | false =>
            rw [e3 h1 h2 rfl] at hc
            simp at hc
        | true =>
            have hwf := wf_New size ttl c hc
            unfold New at hc
            rw [if_neg h1, if_neg h2] at hc
            simp only [if_true] at hc
            obtain rfl := Except.ok.inj hc
            exact ⟨rfl, rfl, rfl, rfl, hwf⟩
  refine ⟨⟨?_, ?_⟩, ok1, e1, e2, e3⟩
  · rintro ⟨msg, hmsg⟩
    by_contra hcon
    push_neg at hcon
    obtain ⟨hc1, hc2, hc3, hc4⟩ := hcon
    cases hb with
    | false => exact hc4 rfl
    | true =>
        unfold New at hmsg
        rw [if_neg (not_or.mpr ⟨not_lt.mpr hc1, not_lt.mpr hc2⟩),
          if_neg (not_lt.mpr hc3)] at hmsg
        simp at hmsg
  · rintro (h | h | h | h)
    · exact ⟨_, e1 (Or.inl h)⟩
    · exact ⟨_, e1 (Or.inr h)⟩
    · by_cases h1 : size < 2 ∨ maxCacheSize < size
      · exact ⟨_, e1 h1⟩
      · exact ⟨_, e2 h1 h⟩
    · by_cases h1 : size < 2 ∨ maxCacheSize < size
      · exact ⟨_, e1 h1⟩
      · by_cases h2 : ttl < 0
        · exact ⟨_, e2 h1 h2⟩
        · exact ⟨_, e3 h1 h2 h⟩

theorem C6_new_validation_witness :
    ((1:Int) < 2 ∨ maxCacheSize < 1) ∧
      New Nat Nat Nat 1 5 true = .error
        ("attempt to create an LRU cache with invalid capacity of " ++
          toString (1:Int) ++ " items") :=
  ⟨by decide,
    (C6_new_validation (K := Nat) (V := Nat) (E := Nat) 1 5 true).2.2.1
      (by decide)⟩

/-! ## Claim C8 -/

/-- C8: `Delete` always succeeds: deleting an absent key leaves the cache
unchanged (no error, no state change — in particular `Delete` is idempotent),
and deleting a present key removes exactly that entry from the key table and
the eviction ring, leaving every other key's entry and ring membership
untouched. -/
theorem C8_delete_total {K V E : Type} [DecidableEq K] [Inhabited V]
    (c : LRU K V E) (hw : c.Wf) (key : K) :
    (lookupNode c.nodes key = none → c.Delete key = c) ∧
    ((c.Delete key).Delete key = c.Delete key) ∧
    (∀ node, lookupNode c.nodes key = some node →
      lookupNode (c.Delete key).nodes key = none ∧
      key ∉ (c.Delete key).list ∧
      (∀ k', k' ≠ key →
        lookupNode (c.Delete key).nodes k' = lookupNode c.nodes k') ∧
      (∀ k', k' ≠ key → ((k' ∈ (c.Delete key).list) ↔ k' ∈ c.list))) := by
  refine ⟨Delete_absent c key, ?_, ?_⟩
  · cases hl : lookupNode c.nodes key with
    | none =>
        rw [Delete_absent c key hl]
        exact Delete_absent c key hl
    | some node =>
        apply Delete_absent
        rw [Delete_present c key node hl]
        simp only
        rw [lookup_erase]
        simp
  · intro node hl
    rw [Delete_present c key node hl]
    refine ⟨?_, ?_, ?_, ?_⟩
    · simp only
      rw [lookup_erase]
      simp
    · simp only
      intro hmem
      exact ((hw.2.1.mem_erase_iff).mp hmem).1 rfl
    · intro k' hk'
      simp only
      rw [lookup_erase, if_neg hk']
    · intro k' hk'
      simp only
      rw [hw.2.1.mem_erase_iff]
      simp [hk']

theorem C8_delete_total_witness :
    (lookupNode cP.nodes (5:Nat) =
        some { once := true, key := 5, value := 105, err := none, ts := 0 }) ∧
      lookupNode (cP.Delete 5).nodes 5 = none :=
  ⟨by decide,
    ((C8_delete_total cP (by decide) 5).2.2
      { once := true, key := 5, value := 105, err := none, ts := 0 }
      (by decide)).1⟩

/-! ## Claims C4 and C9 -/

theorem length_insert_of_lookup_some {K N : Type} [DecidableEq K]
    (m : List (K × N)) (key : K) (n : N) (h : (lookupNode m key).isSome) :
    (insertNode m key n).length = m.length := by
  have h1 : (insertNode m key n).length =
      ((insertNode m key n).map Prod.fst).length := by simp
  rw [h1, keys_insert_of_lookup_some m key n h]
  simp

/-- C4: a resident entry is treated as unexpired exactly when
`now - createdAt < ttl` (strict).  On a fresh hit the node (in particular its
`createdAt`) is returned and left untouched.  When the age is `≥ ttl` the
entry is discarded on that access: the key table now holds a fresh unresolved
node with `createdAt = now`, the access triggers exactly one fresh resolver
call, and the result returned is that of the fresh call, never the old
value/failure. -/
theorem C4_lazy_expiry {K V E : Type} [DecidableEq K] [Inhabited V]
    (c : LRU K V E) (now : Int) (key : K) (node : lruNode K V E)
    (hl : lookupNode c.nodes key = some node)
    (backend : Nat → K → BRes V E) (i : Nat) :
    (now - node.ts < c.ttl →
      (c.get now key).2 = node ∧ ((c.get now key).1).nodes = c.nodes) ∧
    (c.ttl ≤ now - node.ts →
      (c.get now key).2 =
        { once := false, key := key, value := default, err := none, ts := now } ∧
      lookupNode ((c.get now key).1).nodes key = some ((c.get now key).2) ∧
      (c.Get now key backend i).2.2 = [key] ∧
      (∀ v e, backend i key = .ok v e →
        (c.Get now key backend i).2.1 = some (v, e.map CErr.user))) := by
  constructor
  · intro hf
    rw [get_hit c now key node hl hf]
    exact ⟨rfl, rfl⟩
  · intro hexp
    have hf : ¬now - node.ts < c.ttl := not_lt.mpr hexp
    have hnode : (c.get now key).2 =
        { once := false, key := key, value := default, err := none, ts := now } := by
      rw [get_expired c now key node hl hf]
      rfl
    refine ⟨hnode, get_lookup_self c now key, ?_, ?_⟩
    · unfold LRU.Get
      cases hb : backend i key <;> simp [hnode, hb]
    · intro v e hb
      unfold LRU.Get
      simp [hnode, hb]

/-- C9: when `Get` finds the key present but expired, replacing the entry
never evicts any other key, even at full capacity: the entry count is
unchanged, every key's residency is unchanged, every other key's node is
untouched, and the key now maps to a fresh unresolved node. -/
theorem C9_expired_hit_no_eviction {K V E : Type} [DecidableEq K] [Inhabited V]
    (c : LRU K V E) (hw : c.Wf) (now : Int) (key : K) (node : lruNode K V E)
    (hl : lookupNode c.nodes key = some node) (hexp : c.ttl ≤ now - node.ts) :
    ((c.get now key).1).nodes.length = c.nodes.length ∧
    (∀ k', (lookupNode ((c.get now key).1).nodes k').isSome ↔
      (lookupNode c.nodes k').isSome) ∧
    (∀ k', k' ≠ key →
      lookupNode ((c.get now key).1).nodes k' = lookupNode c.nodes k') ∧
    (∀ k', (k' ∈ ((c.get now key).1).list) ↔ k' ∈ c.list) ∧
    lookupNode ((c.get now key).1).nodes key =
      some { once := false, key := key, value := default, err := none, ts := now } := by
  have hf : ¬now - node.ts < c.ttl := not_lt.mpr hexp
  have hm : key ∈ c.list := (wf_mem_list_iff hw key).mpr (by simp [hl])
  rw [get_expired c now key node hl hf]
  simp only [LRU.addNode]
  refine ⟨?_, ?_, ?_, ?_, ?_⟩
  · exact length_insert_of_lookup_some _ _ _ (by simp [hl])
  · intro k'
    by_cases hk : k' = key
    · subst hk
      simp [lookup_insert_self, hl]
    · rw [lookup_insert_ne _ _ _ _ hk]
  · intro k' hk
    rw [lookup_insert_ne _ _ _ _ hk]
  · intro k'
    exact (List.perm_cons_erase hm).symm.mem_iff
  · exact lookup_insert_self _ _ _

-- a full concrete cache (capacity 2, both slots taken, all entries of age 1)
def cF : LRU Nat Nat Nat := (LRU.runGets natBackend c0 0 [1, 2] 0).1

theorem C4_lazy_expiry_witness :
    (lookupNode cP.nodes (5:Nat) =
        some { once := true, key := 5, value := 105, err := none, ts := 0 }) ∧
      cP.ttl ≤ (1:Int) - 0 ∧
      ((cP.get 1 5).2 =
        { once := false, key := 5, value := 0, err := none, ts := 1 } ∧
      (cP.Get 1 5 natBackend 1).2.2 = [5]) :=
  ⟨by decide, by decide,
    ((C4_lazy_expiry cP 1 5
        { once := true, key := 5, value := 105, err := none, ts := 0 }
        (by decide) natBackend 1).2 (by decide)).1,
    ((C4_lazy_expiry cP 1 5
        { once := true, key := 5, value := 105, err := none, ts := 0 }
        (by decide) natBackend 1).2 (by decide)).2.2.1⟩

theorem C9_expired_hit_no_eviction_witness :
    cF.nodes.length = 2 ∧ cF.size = 2 ∧
      ((cF.get 1 2).1).nodes.length = cF.nodes.length ∧
      lookupNode ((cF.get 1 2).1).nodes 2 =
        some { once := false, key := 2, value := 0, err := none, ts := 1 } :=
  ⟨by decide, by decide,
    (C9_expired_hit_no_eviction cF (by decide) 1 2
        { once := true, key := 2, value := 102, err := none, ts := 0 }
        (by decide) (by decide)).1,
    (C9_expired_hit_no_eviction cF (by decide) 1 2
        { once := true, key := 2, value := 102, err := none, ts := 0 }
        (by decide) (by decide)).2.2.2.2⟩

/-! ## Claim C7 -/

/-- C7: if the backend panics while resolving `key` (the node handed back by
the locked `get` step is unresolved and the backend invocation faults), then
`Get` records the generic failure in the entry and marks its guard fired
before re-raising the panic to the triggering caller (modelled by the `none`
result); the entry is terminally resolved, and any later `Get` that finds a
resolved, unexpired entry replays its recorded result — in particular the
recorded generic failure — without invoking the backend again. -/
theorem C7_panic_recorded {K V E : Type} [DecidableEq K] [Inhabited V]
    (c : LRU K V E) (now : Int) (key : K)
    (backend : Nat → K → BRes V E) (i : Nat)
    (ho : ((c.get now key).2).once = false)
    (hb : backend i ((c.get now key).2).key = .fault) :
    (c.Get now key backend i).2.1 = none ∧
    (∃ node', lookupNode ((c.Get now key backend i).1).nodes key = some node' ∧
      node'.once = true ∧ node'.err = some CErr.panicked) ∧
    (∀ (c' : LRU K V E) (now' : Int) (node' : lruNode K V E) (j : Nat),
      lookupNode c'.nodes key = some node' → node'.once = true →
      now' - node'.ts < c'.ttl →
      (c'.Get now' key backend j).2.1 = some (node'.value, node'.err) ∧
      (c'.Get now' key backend j).2.2 = []) := by
  refine ⟨?_, ?_, ?_⟩
  · unfold LRU.Get
    simp [ho, hb]
  · refine ⟨{ (c.get now key).2 with once := true, err := some CErr.panicked },
      ?_, rfl, rfl⟩
    have he : (c.Get now key backend i).1 =
        { (c.get now key).1 with
          nodes := insertNode ((c.get now key).1).nodes key
            { (c.get now key).2 with
              once := true, err := some CErr.panicked } } := by
      unfold LRU.Get
      simp [ho, hb]
    rw [he]
    exact lookup_insert_self _ _ _
  · intro c' now' node' j hl' ho' hf'
    have hg := get_hit c' now' key node' hl' hf'
    unfold LRU.Get
    rw [hg]
    simp [ho']

def panicBackend : Nat → Nat → BRes Nat Nat := fun _ _ => .fault

/-- The cache after one `Get` whose backend panicked (key 3, capacity 2). -/
def cQ : LRU Nat Nat Nat := (c0.Get 0 3 panicBackend 0).1

theorem C7_panic_recorded_witness :
    ((c0.get 0 3).2).once = false ∧
      (c0.Get 0 3 panicBackend 0).2.1 = none ∧
      ((cQ.Get 0 3 panicBackend 1).2.1 =
          some (0, some CErr.panicked) ∧
        (cQ.Get 0 3 panicBackend 1).2.2 = []) :=
  ⟨by decide,
    (C7_panic_recorded c0 0 3 panicBackend 0 (by decide) (by decide)).1,
    (C7_panic_recorded c0 0 3 panicBackend 0 (by decide) (by decide)).2.2
      cQ 0 { once := true, key := 3, value := 0, err := some CErr.panicked,
             ts := 0 } 1 (by decide) (by decide) (by decide)⟩

/-! ## Claim C3 -/

/-- Fields of a successfully constructed cache. -/
theorem New_ok_fields {K V E : Type} (size ttl : Int) (hb : Bool)
    (c : LRU K V E) (h : New K V E size ttl hb = .ok c) :
    c.nodes = [] ∧ c.list = [] ∧ 0 < c.ttl ∧ c.size = size.toNat := by
  unfold New at h
  by_cases h1 : size < 2 ∨ maxCacheSize < size
  · simp [h1] at h
  · by_cases h2 : ttl < 0
    · simp [h1, h2] at h
    · cases hb with
      | false => simp [h1, h2] at h
      | true =>
          simp only [h1, h2, if_false, if_true] at h
          obtain rfl := Except.ok.inj h
          refine ⟨rfl, rfl, ?_, rfl⟩
          by_cases h3 : ttl = 0
          · simp only [h3, if_pos rfl]
            unfold foreverTTL
            norm_num
          · simp only [if_neg h3]
            omega

/-- States reachable from a freshly constructed cache by `Get` and `Delete`
steps, paired with the number of backend invocations made so far (`Get`
advances it by the length of its invocation trace). -/
inductive Reach {K V E : Type} [DecidableEq K] [Inhabited V]
    (backend : Nat → K → BRes V E) : LRU K V E → Nat → Prop where
  | init (size ttl : Int) (c : LRU K V E) :
      New K V E size ttl true = .ok c → Reach backend c 0
  | get (c : LRU K V E) (i : Nat) (now : Int) (key : K) :
      Reach backend c i →
      Reach backend (c.Get now key backend i).1
        (i + ((c.Get now key backend i).2.2).length)
  | del (c : LRU K V E) (i : Nat) (key : K) :
      Reach backend c i → Reach backend (c.Delete key) i

/-- Every resolved node's recorded result is the image of a backend outcome
for its own key: either a normal return recorded verbatim (backend failures
wrapped as `CErr.user`), or the generic `CErr.panicked` failure recorded by
the recover handler after a backend panic on that key. -/
def ResolvedSound {K V E : Type} [DecidableEq K]
    (backend : Nat → K → BRes V E) (c : LRU K V E) : Prop :=
  ∀ p ∈ c.nodes, (p.2).once = true →
    (∃ j e, backend j p.1 = .ok (p.2).value e ∧ (p.2).err = e.map CErr.user) ∨
    (∃ j, backend j p.1 = .fault ∧ (p.2).err = some CErr.panicked)

theorem resolved_sound_get_locked {K V E : Type} [DecidableEq K] [Inhabited V]
    {backend : Nat → K → BRes V E} {c : LRU K V E}
    (hs : ResolvedSound backend c) (now : Int) (key : K) :
    ResolvedSound backend ((c.get now key).1) := by
  intro p hp ho
  cases hl : lookupNode c.nodes key with
  | some node =>
      by_cases hf : now - node.ts < c.ttl
      · rw [get_hit c now key node hl hf] at hp
        exact hs p hp ho
      · rw [get_expired c now key node hl hf] at hp
        simp only [LRU.addNode] at hp
        rcases mem_insert_cases hp with h | h
        · subst h
          simp at ho
        · exact hs p h ho
  | none =>
      by_cases hr : c.size ≤ c.nodes.length
      · cases hlast : c.list.getLast? with
        | some lastKey =>
            rw [get_miss_full c now key lastKey hl hr hlast] at hp
            simp only [LRU.addNode] at hp
            rcases mem_insert_cases hp with h | h
            · subst h
              simp at ho
            · exact hs p (mem_of_mem_erase h) ho
        | none =>
            rw [get_miss_full_empty c now key hl hr hlast] at hp
            simp only [LRU.addNode] at hp
            rcases mem_insert_cases hp with h | h
            · subst h
              simp at ho
            · exact hs p h ho
      · rw [get_miss_room c now key hl hr] at hp
        simp only [LRU.addNode] at hp
        rcases mem_insert_cases hp with h | h
        · subst h
          simp at ho
        · exact hs p h ho

theorem resolved_sound_Get {K V E : Type} [DecidableEq K] [Inhabited V]
    {backend : Nat → K → BRes V E} {c : LRU K V E} (hw : c.Wf)
    (hs : ResolvedSound backend c) (now : Int) (key : K) (i : Nat) :
    ResolvedSound backend ((c.Get now key backend i).1) := by
  have hs1 := resolved_sound_get_locked hs now key
  have hkey := get_node_key hw now key
  by_cases ho : ((c.get now key).2).once
  · have he : (c.Get now key backend i).1 = (c.get now key).1 := by
      unfold LRU.Get
      simp [ho]
    rw [he]
    exact hs1
  · cases hb : backend i ((c.get now key).2).key with
    | ok v e =>
        have he : (c.Get now key backend i).1 =
            { (c.get now key).1 with
              nodes := insertNode ((c.get now key).1).nodes key
                { (c.get now key).2 with
                  once := true, value := v, err := e.map CErr.user } } := by
          unfold LRU.Get
          simp [ho, hb]
        rw [he]
        intro p hp hpo
        rcases mem_insert_cases hp with h | h
        · subst h
          left
          rw [hkey] at hb
          exact ⟨i, e, hb, rfl⟩
        · exact hs1 p h hpo
    | fault =>
        have he : (c.Get now key backend i).1 =
            { (c.get now key).1 with
              nodes := insertNode ((c.get now key).1).nodes key
                { (c.get now key).2 with
                  once := true, err := some CErr.panicked } } := by
          unfold LRU.Get
          simp [ho, hb]
        rw [he]
        intro p hp hpo
        rcases mem_insert_cases hp with h | h
        · subst h
          right
          rw [hkey] at hb
          exact ⟨i, hb, rfl⟩
        · exact hs1 p h hpo

theorem resolved_sound_Delete {K V E : Type} [DecidableEq K]
    {backend : Nat → K → BRes V E} {c : LRU K V E}
    (hs : ResolvedSound backend c) (key : K) :
    ResolvedSound backend (c.Delete key) := by
  intro p hp ho
  unfold LRU.Delete at hp
  cases hl : lookupNode c.nodes key with
  | none =>
      rw [hl] at hp
      exact hs p hp ho
  | some node =>
      rw [hl] at hp
      exact hs p (mem_of_mem_erase hp) ho

/-- Every reachable cache state is well-formed and resolved-sound. -/
theorem reach_wf_sound {K V E : Type} [DecidableEq K] [Inhabited V]
    {backend : Nat → K → BRes V E} {c : LRU K V E} {i : Nat}
    (h : Reach backend c i) : c.Wf ∧ ResolvedSound backend c := by
  induction h with
  | init size ttl c hc =>
      refine ⟨wf_New size ttl c hc, ?_⟩
      intro p hp
      rw [(New_ok_fields size ttl true c hc).1] at hp
      exact absurd hp (List.not_mem_nil p)
  | get c i now key _ ih =>
      exact ⟨wf_Get ih.1 now key backend i, resolved_sound_Get ih.1 ih.2 now key i⟩
  | del c i key _ ih =>
      exact ⟨wf_Delete ih.1 key, resolved_sound_Delete ih.2 key⟩

/-- When the locked step hands back a node whose guard has already fired, the
node was found in the table (the hit path); the other paths hand back a fresh
unresolved node. -/
theorem get_fired_hit {K V E : Type} [DecidableEq K] [Inhabited V]
    (c : LRU K V E) (now : Int) (key : K)
    (ho : ((c.get now key).2).once = true) :
    lookupNode c.nodes key = some ((c.get now key).2) := by
  cases hl : lookupNode c.nodes key with
  | some node =>
      by_cases hf : now - node.ts < c.ttl
      · rw [get_hit c now key node hl hf]
      · rw [get_expired c now key node hl hf] at ho
        simp [LRU.addNode] at ho
  | none =>
      by_cases hr : c.size ≤ c.nodes.length
      · cases hlast : c.list.getLast? with
        | some lastKey =>
            rw [get_miss_full c now key lastKey hl hr hlast] at ho
            simp [LRU.addNode] at ho
        | none =>
            rw [get_miss_full_empty c now key hl hr hlast] at ho
            simp [LRU.addNode] at ho
      · rw [get_miss_room c now key hl hr] at ho
        simp [LRU.addNode] at ho

/-- C3 (amended): in every reachable state, every non-nil failure returned by
`Get(key)` either is a failure the backend returned for `key` (recorded and
replayed as `CErr.user e`), or is the one generic failure `CErr.panicked`
manufactured by the recover handler, and then the backend panicked for `key`.
In particular, as long as the backend never panics, every returned failure
originates from the backend. -/
theorem C3_failures_originate {K V E : Type} [DecidableEq K] [Inhabited V]
    (backend : Nat → K → BRes V E) (c : LRU K V E) (i : Nat)
    (hr : Reach backend c i) (now : Int) (key : K)
    (v : V) (er : Option (CErr E)) (f : CErr E)
    (hres : (c.Get now key backend i).2.1 = some (v, er)) (hf : er = some f) :
    (∃ e, f = CErr.user e ∧ ∃ j v', backend j key = .ok v' (some e)) ∨
    (f = CErr.panicked ∧ ∃ j, backend j key = .fault) := by
  obtain ⟨hw, hs⟩ := reach_wf_sound hr
  have hkey := get_node_key hw now key
  by_cases ho : ((c.get now key).2).once
  · have he : (c.Get now key backend i).2.1 =
        some (((c.get now key).2).value, ((c.get now key).2).err) := by
      unfold LRU.Get
      simp [ho]
    rw [he] at hres
    simp only [Option.some.injEq, Prod.mk.injEq] at hres
    have her : ((c.get now key).2).err = er := hres.2
    have hmem : (key, (c.get now key).2) ∈ c.nodes :=
      lookup_eq_some_mem (get_fired_hit c now key ho)
    rcases hs _ hmem ho with ⟨j, e, hb, herr⟩ | ⟨j, hb, herr⟩
    · left
      rw [her, hf] at herr
      cases e with
      | none => simp at herr
      | some e0 =>
          simp only [Option.map_some', Option.some.injEq] at herr
          exact ⟨e0, herr, j, ((c.get now key).2).value, hb⟩
    · right
      rw [her, hf] at herr
      simp only [Option.some.injEq] at herr
      exact ⟨herr, j, hb⟩
  · cases hb : backend i ((c.get now key).2).key with
    | ok v' e =>
        have he : (c.Get now key backend i).2.1 =
            some (v', e.map CErr.user) := by
          unfold LRU.Get
          simp [ho, hb]
        rw [he] at hres
        simp only [Option.some.injEq, Prod.mk.injEq] at hres
        have her : e.map CErr.user = some f := hres.2.trans hf
        cases e with
        | none => simp at her
        | some e0 =>
            left
            rw [hkey] at hb
            simp only [Option.map_some', Option.some.injEq] at her
            exact ⟨e0, her.symm, i, v', hb⟩
    | fault =>
        have he : (c.Get now key backend i).2.1 = none := by
          unfold LRU.Get
          simp [ho, hb]
        rw [he] at hres
        exact absurd hres (by simp)

def errBackend : Nat → Nat → BRes Nat Nat := fun _ k => .ok (k + 100) (some 7)

theorem C3_failures_originate_witness :
    ((c0.Get 0 4 errBackend 0).2.1 = some (104, some (CErr.user 7))) ∧
      ((∃ e, (CErr.user 7 : CErr Nat) = CErr.user e ∧
          ∃ j v', errBackend j 4 = .ok v' (some e)) ∨
        ((CErr.user 7 : CErr Nat) = CErr.panicked ∧
          ∃ j, errBackend j 4 = .fault)) :=
  ⟨by decide,
    C3_failures_originate errBackend c0 0 (Reach.init 2 1 c0 (by rfl)) 0 4
      104 (some (CErr.user 7)) (CErr.user 7) (by decide) rfl⟩

/-- C3 counterexample: with a backend that panics on every invocation, the
second `Get` for key 3 returns the non-nil failure `CErr.panicked` — the
generic failure manufactured by `Get`'s recover handler (lru.go 80), which by
construction is not of the form `CErr.user e` for any backend-returned
failure `e`; indeed this backend never returns at all (it faults on every
invocation, as the last two conjuncts record for the two invocation indexes
used in the run), so no failure returned by it exists.  This refutes the
claim that every non-nil failure returned by `Get` is a value the resolver
returned. -/
theorem C3_counterexample :
    (cQ.Get 0 3 panicBackend 1).2.1 = some (0, some CErr.panicked) ∧
    panicBackend 0 3 = .fault ∧ panicBackend 1 3 = .fault := by
  exact ⟨by decide, rfl, rfl⟩

/-! ## Claim C2 -/

/-- Distinct elements in order of first occurrence. -/
def firsts {K : Type} [DecidableEq K] : List K → List K
  | [] => []
  | x :: xs => x :: (firsts xs).filter (· ≠ x)

/-- One access of the reference LRU automaton on the resident key list
(head = most recently used): a hit moves the key to the front, a miss with a
full cache drops the least recent key, a miss with room just inserts. -/
def lruStep {K : Type} [DecidableEq K] (C : Nat) (res : List K) (k : K) :
    List K :=
  if k ∈ res then k :: res.erase k
  else if C ≤ res.length then k :: res.dropLast
  else k :: res

def lruRun {K : Type} [DecidableEq K] (C : Nat) : List K → List K → List K
  | res, [] => res
  | res, k :: ks => lruRun C (lruStep C res k) ks

/-- The accesses that miss: the reference backend-invocation trace. -/
def lruMisses {K : Type} [DecidableEq K] (C : Nat) : List K → List K → List K
  | _, [] => []
  | res, k :: ks =>
      (if k ∈ res then ([] : List K) else [k]) ++
        lruMisses C (lruStep C res k) ks

/-- No resident entry is expired at time `now`. -/
def NoExpiry {K V E : Type} [DecidableEq K] (c : LRU K V E) (now : Int) :
    Prop :=
  ∀ p ∈ c.nodes, now - (p.2).ts < c.ttl

/-- Every resident entry's once has fired (true between sequential `Get`s). -/
def AllResolved {K V E : Type} [DecidableEq K] (c : LRU K V E) : Prop :=
  ∀ p ∈ c.nodes, (p.2).once = true

theorem mem_insert_cases_nodup {K N : Type} [DecidableEq K]
    {m : List (K × N)} {key : K} {n : N} {p : K × N}
    (hnd : (m.map Prod.fst).Nodup) (h : p ∈ insertNode m key n) :
    p = (key, n) ∨ (p ∈ m ∧ p.1 ≠ key) := by
  induction m with
  | nil =>
      simp only [insertNode, List.mem_singleton] at h
      exact Or.inl h
  | cons q m ih =>
      obtain ⟨k, x⟩ := q
      simp only [List.map_cons, List.nodup_cons] at hnd
      by_cases hk : k = key
      · subst hk
        simp only [insertNode, if_pos rfl] at h
        rcases List.mem_cons.mp h with h | h
        · exact Or.inl h
        · refine Or.inr ⟨List.mem_cons_of_mem _ h, ?_⟩
          intro hpk
          exact hnd.1 (hpk ▸ List.mem_map_of_mem Prod.fst h)
      · simp only [insertNode, if_neg hk] at h
        rcases List.mem_cons.mp h with h | h
        · subst h
          exact Or.inr ⟨List.mem_cons_self _ _, hk⟩
        · rcases ih hnd.2 h with h | ⟨h1, h2⟩
          · exact Or.inl h
          · exact Or.inr ⟨List.mem_cons_of_mem _ h1, h2⟩

/-- If the node handed back by the locked step has a fired guard, the map was
left unchanged (the hit path). -/
theorem get_nodes_eq_of_fired {c : LRU K V E} {now : Int} {key : K}
    (ho : ((c.get now key).2).once = true) :
    ((c.get now key).1).nodes = c.nodes := by
  cases hl : lookupNode c.nodes key with
  | some node =>
      by_cases hf : now - node.ts < c.ttl
      · rw [get_hit c now key node hl hf]
      · rw [get_expired c now key node hl hf] at ho
        simp [LRU.addNode] at ho
  | none =>
      by_cases hr : c.size ≤ c.nodes.length
      · cases hlast : c.list.getLast? with
        | some lastKey =>
            rw [get_miss_full c now key lastKey hl hr hlast] at ho
            simp [LRU.addNode] at ho
        | none =>
            rw [get_miss_full_empty c now key hl hr hlast] at ho
            simp [LRU.addNode] at ho
      · rw [get_miss_room c now key hl hr] at ho
        simp [LRU.addNode] at ho

/-- The node handed back by the locked step is either freshly created at `now`
or was already resident. -/
theorem get_node_ts (c : LRU K V E) (now : Int) (key : K) :
    ((c.get now key).2).ts = now ∨ (key, (c.get now key).2) ∈ c.nodes := by
  cases hl : lookupNode c.nodes key with
  | some node =>
      by_cases hf : now - node.ts < c.ttl
      · rw [get_hit c now key node hl hf]
        exact Or.inr (lookup_eq_some_mem hl)
      · rw [get_expired c now key node hl hf]
        exact Or.inl rfl
  | none =>
      by_cases hr : c.size ≤ c.nodes.length
      · cases hlast : c.list.getLast? with
        | some lastKey =>
            rw [get_miss_full c now key lastKey hl hr hlast]
            exact Or.inl rfl
        | none =>
            rw [get_miss_full_empty c now key hl hr hlast]
            exact Or.inl rfl
      · rw [get_miss_room c now key hl hr]
        exact Or.inl rfl

/-- Any binding for a key other than the accessed one survives the locked
step only if it was already there. -/
theorem get_nodes_mem_ne {c : LRU K V E} {now : Int} {key : K}
    {p : K × lruNode K V E} (hp : p ∈ ((c.get now key).1).nodes)
    (hpk : p.1 ≠ key) : p ∈ c.nodes := by
  cases hl : lookupNode c.nodes key with
  | some node =>
      by_cases hf : now - node.ts < c.ttl
      · rw [get_hit c now key node hl hf] at hp
        exact hp
      · rw [get_expired c now key node hl hf] at hp
        simp only [LRU.addNode] at hp
        rcases mem_insert_cases hp with h | h
        · exact absurd (congrArg Prod.fst h) hpk
        · exact h
  | none =>
      by_cases hr : c.size ≤ c.nodes.length
      · cases hlast : c.list.getLast? with
        | some lastKey =>
            rw [get_miss_full c now key lastKey hl hr hlast] at hp
            simp only [LRU.addNode] at hp
            rcases mem_insert_cases hp with h | h
            · exact absurd (congrArg Prod.fst h) hpk
            · exact mem_of_mem_erase h
        | none =>
            rw [get_miss_full_empty c now key hl hr hlast] at hp
            simp only [LRU.addNode] at hp
            rcases mem_insert_cases hp with h | h
            · exact absurd (congrArg Prod.fst h) hpk
            · exact h
      · rw [get_miss_room c now key hl hr] at hp
        simp only [LRU.addNode] at hp
        rcases mem_insert_cases hp with h | h
        · exact absurd (congrArg Prod.fst h) hpk
        · exact h

theorem get_size_eq (c : LRU K V E) (now : Int) (key : K) :
    ((c.get now key).1).size = c.size := by
  unfold LRU.get LRU.addNode
  split
  · split <;> rfl
  · split
    · split <;> rfl
    · rfl

theorem get_ttl_eq (c : LRU K V E) (now : Int) (key : K) :
    ((c.get now key).1).ttl = c.ttl := by
  unfold LRU.get LRU.addNode
  split
  · split <;> rfl
  · split
    · split <;> rfl
    · rfl

theorem Get_list_eq (c : LRU K V E) (now : Int) (key : K)
    (backend : Nat → K → BRes V E) (i : Nat) :
    ((c.Get now key backend i).1).list = ((c.get now key).1).list := by
  unfold LRU.Get
  by_cases ho : ((c.get now key).2).once
  · simp [ho]
  · cases hb : backend i ((c.get now key).2).key <;> simp [ho, hb]

theorem Get_nodes_shape (c : LRU K V E) (now : Int) (key : K)
    (backend : Nat → K → BRes V E) (i : Nat) :
    (((c.get now key).2).once = true ∧
      ((c.Get now key backend i).1).nodes = ((c.get now key).1).nodes) ∨
    (∃ node', ((c.Get now key backend i).1).nodes =
        insertNode ((c.get now key).1).nodes key node' ∧
      node'.once = true ∧ node'.ts = ((c.get now key).2).ts) := by
  unfold LRU.Get
  by_cases ho : ((c.get now key).2).once
  · left
    refine ⟨ho, ?_⟩
    simp [ho]
  · cases hb : backend i ((c.get now key).2).key with
    | ok v e =>
        right
        refine ⟨{ (c.get now key).2 with
          once := true, value := v, err := e.map CErr.user }, ?_, rfl, rfl⟩
        simp [ho, hb]
    | fault =>
        right
        refine ⟨{ (c.get now key).2 with
          once := true, err := some CErr.panicked }, ?_, rfl, rfl⟩
        simp [ho, hb]

theorem Get_size_eq (c : LRU K V E) (now : Int) (key : K)
    (backend : Nat → K → BRes V E) (i : Nat) :
    ((c.Get now key backend i).1).size = c.size := by
  unfold LRU.Get
  by_cases ho : ((c.get now key).2).once
  · simp [ho, get_size_eq]
  · cases hb : backend i ((c.get now key).2).key <;>
      simp [ho, hb, get_size_eq]

theorem Get_ttl_eq (c : LRU K V E) (now : Int) (key : K)
    (backend : Nat → K → BRes V E) (i : Nat) :
    ((c.Get now key backend i).1).ttl = c.ttl := by
  unfold LRU.Get
  by_cases ho : ((c.get now key).2).once
  · simp [ho, get_ttl_eq]
  · cases hb : backend i ((c.get now key).2).key <;>
      simp [ho, hb, get_ttl_eq]

theorem erase_getLast_eq_dropLast {K : Type} [DecidableEq K]
    (l : List K) (a : K) (hnd : l.Nodup) (h : l.getLast? = some a) :
    l.erase a = l.dropLast := by
  have hne : l ≠ [] := by
    intro h0
    rw [h0] at h
    simp at h
  have hget : l.getLast hne = a := by
    rw [List.getLast?_eq_getLast l hne] at h
    exact Option.some.inj h
  have hsplit : l.dropLast ++ [a] = l := by
    rw [← hget]
    exact List.dropLast_append_getLast hne
  have hna : a ∉ l.dropLast := by
    have hnd2 : (l.dropLast ++ [a]).Nodup := by rw [hsplit]; exact hnd
    intro hmem
    exact List.disjoint_of_nodup_append hnd2 hmem (List.mem_singleton_self a)
  calc l.erase a = (l.dropLast ++ [a]).erase a := by rw [hsplit]
    _ = l.dropLast ++ ([a].erase a) := List.erase_append_right _ hna
    _ = l.dropLast := by simp

/-- Under the sequential-run invariants, the ring evolves like the reference
LRU automaton. -/
theorem Get_list_lruStep {c : LRU K V E} {now : Int} (hw : c.Wf)
    (hne : NoExpiry c now) (key : K)
    (backend : Nat → K → BRes V E) (i : Nat) :
    ((c.Get now key backend i).1).list = lruStep c.size c.list key := by
  rw [Get_list_eq]
  cases hl : lookupNode c.nodes key with
  | some node =>
      have hmem : key ∈ c.list := (wf_mem_list_iff hw key).mpr (by simp [hl])
      have hfr : now - node.ts < c.ttl := hne _ (lookup_eq_some_mem hl)
      rw [get_hit c now key node hl hfr]
      simp only
      rw [listMtf_eq_cons_erase hw.2.1 hmem]
      unfold lruStep
      rw [if_pos hmem]
  | none =>
      have hmem : key ∉ c.list := by
        rw [wf_mem_list_iff hw key, hl]
        simp
      by_cases hr : c.size ≤ c.nodes.length
      · have hlist_ne : c.list ≠ [] := by
          intro h
          rw [wf_length_nodes hw, h] at hr
          simp at hr
          have := hw.1
          omega
        cases hlast : c.list.getLast? with
        | none => exact absurd (List.getLast?_eq_none_iff.mp hlast) hlist_ne
        | some lastKey =>
            rw [get_miss_full c now key lastKey hl hr hlast]
            simp only [LRU.addNode]
            unfold lruStep
            rw [if_neg hmem, if_pos (by rw [← wf_length_nodes hw]; exact hr),
              erase_getLast_eq_dropLast c.list lastKey hw.2.1 hlast]
      · rw [get_miss_room c now key hl hr]
        simp only [LRU.addNode]
        unfold lruStep
        rw [if_neg hmem, if_neg (by rw [← wf_length_nodes hw]; exact hr)]

/-- Under the sequential-run invariants, the backend is invoked exactly on
misses: not at all on a resident (hence resolved and unexpired) key, exactly
once otherwise. -/
theorem Get_trace_miss {c : LRU K V E} {now : Int} (hw : c.Wf)
    (hne : NoExpiry c now) (hres : AllResolved c) (key : K)
    (backend : Nat → K → BRes V E) (i : Nat) :
    (c.Get now key backend i).2.2 = if key ∈ c.list then [] else [key] := by
  have hkey := get_node_key hw now key
  cases hl : lookupNode c.nodes key with
  | some node =>
      have hmem : key ∈ c.list := (wf_mem_list_iff hw key).mpr (by simp [hl])
      have hfr : now - node.ts < c.ttl := hne _ (lookup_eq_some_mem hl)
      have ho : ((c.get now key).2).once = true := by
        rw [get_hit c now key node hl hfr]
        exact hres _ (lookup_eq_some_mem hl)
      unfold LRU.Get
      rw [if_pos hmem]
      simp [ho]
  | none =>
      have hmem : key ∉ c.list := by
        rw [wf_mem_list_iff hw key, hl]
        simp
      have ho : ((c.get now key).2).once = false := by
        by_cases hr : c.size ≤ c.nodes.length
        · cases hlast : c.list.getLast? with
          | some lastKey =>
              rw [get_miss_full c now key lastKey hl hr hlast]
              rfl
          | none =>
              rw [get_miss_full_empty c now key hl hr hlast]
              rfl
        · rw [get_miss_room c now key hl hr]
          rfl
      unfold LRU.Get
      rw [if_neg hmem]
      cases hb : backend i ((c.get now key).2).key <;>
        (rw [hkey] at hb; simp [ho, hkey, hb])

theorem NoExpiry_get_locked {c : LRU K V E} {now : Int}
    (hne : NoExpiry c now) (hpos : 0 < c.ttl) (key : K) :
    NoExpiry ((c.get now key).1) now := by
  intro p hp
  rw [get_ttl_eq]
  cases hl : lookupNode c.nodes key with
  | some node =>
      by_cases hf : now - node.ts < c.ttl
      · rw [get_hit c now key node hl hf] at hp
        exact hne p hp
      · rw [get_expired c now key node hl hf] at hp
        simp only [LRU.addNode] at hp
        rcases mem_insert_cases hp with h | h
        · subst h
          simpa using hpos
        · exact hne p h
  | none =>
      by_cases hr : c.size ≤ c.nodes.length
      · cases hlast : c.list.getLast? with
        | some lastKey =>
            rw [get_miss_full c now key lastKey hl hr hlast] at hp
            simp only [LRU.addNode] at hp
            rcases mem_insert_cases hp with h | h
            · subst h
              simpa using hpos
            · exact hne p (mem_of_mem_erase h)
        | none =>
            rw [get_miss_full_empty c now key hl hr hlast] at hp
            simp only [LRU.addNode] at hp
            rcases mem_insert_cases hp with h | h
            · subst h
              simpa using hpos
            · exact hne p h
      · rw [get_miss_room c now key hl hr] at hp
        simp only [LRU.addNode] at hp
        rcases mem_insert_cases hp with h | h
        · subst h
          simpa using hpos
        · exact hne p h

theorem NoExpiry_Get {c : LRU K V E} {now : Int} (hne : NoExpiry c now)
    (hpos : 0 < c.ttl) (key : K) (backend : Nat → K → BRes V E) (i : Nat) :
    NoExpiry ((c.Get now key backend i).1) now := by
  have h1 := NoExpiry_get_locked hne hpos key
  intro p hp
  rw [Get_ttl_eq]
  rcases Get_nodes_shape c now key backend i with ⟨_, he⟩ | ⟨node', he, _, hts⟩
  · rw [he] at hp
    have := h1 p hp
    rwa [get_ttl_eq] at this
  · rw [he] at hp
    rcases mem_insert_cases hp with h | h
    · subst h
      simp only [hts]
      rcases get_node_ts c now key with h2 | h2
      · rw [h2]
        simpa using hpos
      · exact hne _ h2
    · have := h1 p h
      rwa [get_ttl_eq] at this

theorem AllResolved_Get {c : LRU K V E} (now : Int) (hw : c.Wf)
    (hres : AllResolved c) (key : K)
    (backend : Nat → K → BRes V E) (i : Nat) :
    AllResolved ((c.Get now key backend i).1) := by
  intro p hp
  rcases Get_nodes_shape c now key backend i with ⟨ho, he⟩ | ⟨node', he, ho', _⟩
  · rw [he, get_nodes_eq_of_fired ho] at hp
    exact hres p hp
  · rw [he] at hp
    rcases mem_insert_cases_nodup (wf_keys_nodup (wf_get hw now key)) hp with
      h | ⟨h, hne'⟩
    · rw [h]
      exact ho'
    · exact hres p (get_nodes_mem_ne h hne')

/-- The cache refines the reference LRU automaton over a whole run of `Get`s
(at a fixed time, starting from a well-formed, unexpired, fully resolved
state): the final ring is `lruRun` of the initial ring and the backend
invocation trace is `lruMisses`. -/
theorem runGets_spec {K V E : Type} [DecidableEq K] [Inhabited V]
    (backend : Nat → K → BRes V E) (now : Int) :
    ∀ (ks : List K) (c : LRU K V E) (i : Nat),
      c.Wf → NoExpiry c now → AllResolved c → 0 < c.ttl →
      ((LRU.runGets backend c now ks i).1).list = lruRun c.size c.list ks ∧
      (LRU.runGets backend c now ks i).2 = lruMisses c.size c.list ks := by
  intro ks
  induction ks with
  | nil =>
      intro c i hw hne hres hpos
      exact ⟨rfl, rfl⟩
  | cons k ks ih =>
      intro c i hw hne hres hpos
      have hstep := Get_list_lruStep hw hne k backend i
      have htr := Get_trace_miss hw hne hres k backend i
      have hw' := wf_Get hw now k backend i
      have hne' := NoExpiry_Get hne hpos k backend i
      have hres' := AllResolved_Get now hw hres k backend i
      have hpos' : 0 < ((c.Get now k backend i).1).ttl := by
        rw [Get_ttl_eq]
        exact hpos
      have ih' := ih (c.Get now k backend i).1
        (i + ((c.Get now k backend i).2.2).length) hw' hne' hres' hpos'
      constructor
      · unfold LRU.runGets
        simp only
        rw [ih'.1, Get_size_eq, hstep]
        rfl
      · unfold LRU.runGets
        simp only
        rw [ih'.2, Get_size_eq, hstep, htr]
        rfl

/-! ### The reference automaton computes take-C of the distinct keys -/

theorem filter_ne_of_not_mem {K : Type} [DecidableEq K] {F : List K} {k : K}
    (h : k ∉ F) : F.filter (· ≠ k) = F := by
  rw [List.filter_eq_self]
  intro a ha
  simp only [ne_eq, decide_eq_true_eq]
  rintro rfl
  exact h ha

theorem mem_firsts {K : Type} [DecidableEq K] (l : List K) (a : K) :
    a ∈ firsts l ↔ a ∈ l := by
  induction l with
  | nil => simp [firsts]
  | cons x xs ih =>
      by_cases hax : a = x
      · subst hax
        simp [firsts]
      · simp only [firsts, List.mem_cons, List.mem_filter, ih,
          decide_eq_true_eq]
        constructor
        · rintro (h | ⟨h, _⟩)
          · exact Or.inl h
          · exact Or.inr h
        · rintro (h | h)
          · exact Or.inl h
          · exact Or.inr ⟨h, by simpa using hax⟩

theorem nodup_firsts {K : Type} [DecidableEq K] (l : List K) :
    (firsts l).Nodup := by
  induction l with
  | nil => simp [firsts]
  | cons x xs ih =>
      simp only [firsts, List.nodup_cons]
      refine ⟨?_, ih.filter _⟩
      intro h
      have := (List.mem_filter.mp h).2
      simp at this

theorem firsts_eq_self_of_nodup {K : Type} [DecidableEq K] {l : List K}
    (h : l.Nodup) : firsts l = l := by
  induction l with
  | nil => rfl
  | cons x xs ih =>
      obtain ⟨hx, hxs⟩ := List.nodup_cons.mp h
      unfold firsts
      rw [ih hxs, filter_ne_of_not_mem hx]

theorem take_erase_of_mem {K : Type} [DecidableEq K] :
    ∀ (F : List K) (n : Nat) (k : K), F.Nodup → k ∈ F.take (n + 1) →
      (F.take (n + 1)).erase k = (F.filter (· ≠ k)).take n
  | [], n, k, _, hk => by simp at hk
  | x :: F, n, k, hnd, hk => by
      obtain ⟨hx, hF⟩ := List.nodup_cons.mp hnd
      by_cases hxk : x = k
      · subst hxk
        rw [List.take_succ_cons, List.erase_cons_head, List.filter_cons,
          if_neg (by simp), filter_ne_of_not_mem hx]
      · rw [List.take_succ_cons] at hk
        have hk' : k ∈ F.take n := by
          rcases List.mem_cons.mp hk with h | h
          · exact absurd h.symm hxk
          · exact h
        cases n with
        | zero => simp at hk'
        | succ m =>
            rw [List.take_succ_cons,
              List.erase_cons_tail (by simpa using hxk),
              take_erase_of_mem F m k hF hk', List.filter_cons,
              if_pos (by simpa using hxk), List.take_succ_cons]

theorem take_filter_of_not_mem {K : Type} [DecidableEq K] :
    ∀ (F : List K) (n : Nat) (k : K), k ∉ F.take (n + 1) →
      (F.filter (· ≠ k)).take n = F.take n
  | [], n, k, _ => by simp
  | x :: F, n, k, hk => by
      rw [List.take_succ_cons] at hk
      simp only [List.mem_cons, not_or] at hk
      obtain ⟨hx, hk'⟩ := hk
      rw [List.filter_cons, if_pos (by simpa using fun h => hx h.symm)]
      cases n with
      | zero => simp
      | succ m =>
          rw [List.take_succ_cons, List.take_succ_cons,
            take_filter_of_not_mem F m k hk']

theorem dropLast_take_succ {K : Type} (F : List K) (n : Nat)
    (h : n + 1 ≤ F.length) : (F.take (n + 1)).dropLast = F.take n := by
  rw [List.dropLast_eq_take, List.length_take, Nat.min_eq_left h]
  simp only [Nat.add_sub_cancel]
  rw [List.take_take, Nat.min_eq_left (Nat.le_succ n)]

theorem lruRun_append {K : Type} [DecidableEq K] (C : Nat)
    (res xs ys : List K) :
    lruRun C res (xs ++ ys) = lruRun C (lruRun C res xs) ys := by
  induction xs generalizing res with
  | nil => rfl
  | cons x xs ih =>
      simp only [List.cons_append, lruRun]
      exact ih _

/-- Processing any access sequence through the reference LRU automaton from
an empty cache of capacity `C ≥ 1` leaves exactly the first `C` of the
distinct keys in order of most recent access. -/
theorem lruRun_nil_take_firsts {K : Type} [DecidableEq K] (C : Nat)
    (hC : 1 ≤ C) (ks : List K) :
    lruRun C [] ks = (firsts ks.reverse).take C := by
  induction ks using List.reverseRecOn with
  | nil => simp [lruRun, firsts]
  | append_singleton ks k ih =>
      rw [lruRun_append, ih]
      have hrev : (ks ++ [k]).reverse = k :: ks.reverse := by simp
      rw [hrev,
        show firsts (k :: ks.reverse) =
          k :: (firsts ks.reverse).filter (· ≠ k) from rfl]
      have hF := nodup_firsts (K := K) ks.reverse
      set F := firsts ks.reverse with hFdef
      cases C with
      | zero => omega
      | succ n =>
          show lruStep (n + 1) (F.take (n + 1)) k =
            (k :: F.filter (· ≠ k)).take (n + 1)
          rw [List.take_succ_cons]
          unfold lruStep
          by_cases hk : k ∈ F.take (n + 1)
          · rw [if_pos hk, take_erase_of_mem F n k hF hk]
          · rw [if_neg hk]
            by_cases hlen : n + 1 ≤ (F.take (n + 1)).length
            · have hlen' : n + 1 ≤ F.length := by
                rw [List.length_take] at hlen
                omega
              rw [if_pos hlen, dropLast_take_succ F n hlen',
                take_filter_of_not_mem F n k hk]
            · have hlen' : F.length ≤ n := by
                rw [List.length_take] at hlen
                omega
              have hFtake : F.take (n + 1) = F :=
                List.take_of_length_le (by omega)
              rw [if_neg hlen, hFtake]
              rw [hFtake] at hk
              rw [filter_ne_of_not_mem hk, List.take_of_length_le hlen']

theorem mem_lruStep {K : Type} [DecidableEq K] {C : Nat} {res : List K}
    {k a : K} (h : a ∈ lruStep C res k) : a = k ∨ a ∈ res := by
  unfold lruStep at h
  by_cases h1 : k ∈ res
  · rw [if_pos h1] at h
    rcases List.mem_cons.mp h with h | h
    · exact Or.inl h
    · exact Or.inr (List.mem_of_mem_erase h)
  · rw [if_neg h1] at h
    by_cases h2 : C ≤ res.length
    · rw [if_pos h2] at h
      rcases List.mem_cons.mp h with h | h
      · exact Or.inl h
      · exact Or.inr ((List.dropLast_sublist _).subset h)
    · rw [if_neg h2] at h
      rcases List.mem_cons.mp h with h | h
      · exact Or.inl h
      · exact Or.inr h

/-- With pairwise-distinct accesses none of which is initially resident,
every access misses: the reference trace is the access list itself. -/
theorem lruMisses_of_nodup {K : Type} [DecidableEq K] (C : Nat) :
    ∀ (ks res : List K), ks.Nodup → (∀ a ∈ ks, a ∉ res) →
      lruMisses C res ks = ks
  | [], _, _, _ => rfl
  | k :: ks, res, hnd, hdisj => by
      obtain ⟨hk, hnd'⟩ := List.nodup_cons.mp hnd
      unfold lruMisses
      rw [if_neg (hdisj k (List.mem_cons_self k ks))]
      have hdisj' : ∀ a ∈ ks, a ∉ lruStep C res k := by
        intro a ha hmem
        rcases mem_lruStep hmem with h | h
        · exact hk (h ▸ ha)
        · exact hdisj a (List.mem_cons_of_mem _ ha) h
      rw [lruMisses_of_nodup C ks (lruStep C res k) hnd' hdisj']
      rfl

/-- C2 counterexample: with capacity 2 and access sequence 1,2,3,1 (no
deletes, no expiry), key 1 is evicted by the access to 3 and re-fetched by the
final access: the backend trace is 1,2,3,1, invoking the backend twice for the
distinct key 1 — not "exactly once per distinct key, in first-access order"
(which would be the trace 1,2,3).  The residency part of the claim does hold
here: the final ring is the last two distinct keys touched, 1 then 3. -/
theorem C2_counterexample :
    (LRU.runGets natBackend c0 0 [1, 2, 3, 1] 0).2 = [1, 2, 3, 1] ∧
    (LRU.runGets natBackend c0 0 [1, 2, 3, 1] 0).2.count 1 = 2 ∧
    firsts [1, 2, 3, 1] = [1, 2, 3] ∧
    ((LRU.runGets natBackend c0 0 [1, 2, 3, 1] 0).1).list = [1, 3] := by
  decide

/-- C2 (amended): starting from a freshly constructed cache, for every access
sequence `ks` touching more than `capacity` distinct keys, with no `Delete`
and no expiry (all accesses at one time; a fresh cache's TTL is positive):
the final eviction ring holds exactly the last `capacity` distinct keys
touched, in most-recent-first order (`take capacity` of the distinct keys of
the reversed sequence), and the backend is invoked exactly once per access to
a key not resident at that moment, in access order (`lruMisses`); when no key
is re-accessed after eviction — in particular for pairwise-distinct accesses
— that is exactly once per distinct key, in first-access order. -/
theorem C2_bounded_residency {K V E : Type} [DecidableEq K] [Inhabited V]
    (backend : Nat → K → BRes V E) (size ttl : Int) (c : LRU K V E)
    (hc : New K V E size ttl true = .ok c) (now : Int) (ks : List K)
    (hN : c.size < (firsts ks.reverse).length) :
    ((LRU.runGets backend c now ks 0).1).list =
      (firsts ks.reverse).take c.size ∧
    (((LRU.runGets backend c now ks 0).1).list).length = c.size ∧
    (LRU.runGets backend c now ks 0).2 = lruMisses c.size [] ks ∧
    (ks.Nodup → (LRU.runGets backend c now ks 0).2 = firsts ks) := by
  obtain ⟨hnodes, hlist, hpos, hsize⟩ := New_ok_fields size ttl true c hc
  have hw := wf_New size ttl c hc
  have hne : NoExpiry c now := by
    intro p hp
    rw [hnodes] at hp
    exact absurd hp (List.not_mem_nil p)
  have hres : AllResolved c := by
    intro p hp
    rw [hnodes] at hp
    exact absurd hp (List.not_mem_nil p)
  have hspec := runGets_spec backend now ks c 0 hw hne hres hpos
  have hC : 1 ≤ c.size := by
    have := hw.1
    omega
  have h1 : ((LRU.runGets backend c now ks 0).1).list =
      (firsts ks.reverse).take c.size := by
    rw [hspec.1, hlist, lruRun_nil_take_firsts c.size hC ks]
  refine ⟨h1, ?_, ?_, ?_⟩
  · rw [h1, List.length_take]
    omega
  · rw [hspec.2, hlist]
  · intro hnd
    rw [hspec.2, hlist, lruMisses_of_nodup c.size ks [] hnd (by simp),
      firsts_eq_self_of_nodup hnd]

theorem C2_bounded_residency_witness :
    (c0.size < (firsts (List.reverse [1, 2, 3])).length) ∧
      ((LRU.runGets natBackend c0 0 [1, 2, 3] 0).1).list =
        (firsts (List.reverse [1, 2, 3])).take c0.size ∧
      (LRU.runGets natBackend c0 0 [1, 2, 3] 0).2 =
        lruMisses c0.size [] [1, 2, 3] :=
  ⟨by decide,
    (C2_bounded_residency natBackend 2 1 c0 (by rfl) 0 [1, 2, 3]
      (by decide)).1,
    (C2_bounded_residency natBackend 2 1 c0 (by rfl) 0 [1, 2, 3]
      (by decide)).2.2.1⟩

/-! ## Claim C1: single-flight resolution under concurrent `Get`s

Concurrent callers of `Get` for one key all drive the same node's
`sync.Once.Do` (lru.go 77-86).  Go's `sync.Once` takes a fast path when the
done flag is already set, and otherwise serializes callers through an internal
mutex: the first caller runs `f` and the done flag is published only after
`f`'s writes to the node complete, so no caller can observe a half-written
result.  The machine below models exactly this protocol for one entry
instance: `done` is the write-once result cell (set atomically together with
the resolver's result, mirroring the release-store of the done flag), `runner`
is the mutex owner, and each of the `n` concurrent callers steps
nondeterministically through enter/block/run/wake transitions. -/

/-- Status of one caller of the entry's once guard. -/
inductive TState (R : Type) where
  | pending
  | running
  | waiting
  | finished (r : R)
deriving DecidableEq, Repr

/-- Global state of one entry's single-flight resolution: the write-once
result cell, the index of the caller currently executing the resolver (the
once's mutex owner), each caller's status, and the number of resolver
invocations so far. -/
structure SFState (R : Type) where
  done : Option R
  runner : Option Nat
  threads : List (TState R)
  calls : Nat
deriving DecidableEq, Repr

/-- `n` concurrent callers arriving at an unresolved entry. -/
def sfInit (R : Type) (n : Nat) : SFState R :=
  { done := none, runner := none, threads := List.replicate n .pending,
    calls := 0 }

/-- One interleaving step; `b` is the resolver's result for this entry. -/
inductive SFStep {R : Type} (b : R) : SFState R → SFState R → Prop where
  | hitDone (s : SFState R) (t : Nat) (r : R) :
      s.threads.get? t = some .pending → s.done = some r →
      SFStep b s { s with threads := s.threads.set t (.finished r) }
  | enter (s : SFState R) (t : Nat) :
      s.threads.get? t = some .pending → s.done = none → s.runner = none →
      SFStep b s { s with runner := some t,
                          threads := s.threads.set t .running }
  | block (s : SFState R) (t : Nat) :
      s.threads.get? t = some .pending → s.done = none → s.runner ≠ none →
      SFStep b s { s with threads := s.threads.set t .waiting }
  | run (s : SFState R) (t : Nat) :
      s.threads.get? t = some .running → s.runner = some t →
      SFStep b s { s with done := some b, runner := none,
                          threads := s.threads.set t (.finished b),
                          calls := s.calls + 1 }
  | wake (s : SFState R) (t : Nat) (r : R) :
      s.threads.get? t = some .waiting → s.done = some r →
      SFStep b s { s with threads := s.threads.set t (.finished r) }

theorem get?_set_self {α : Type} (l : List α) (i : Nat) (a x : α)
    (h : l.get? i = some x) : (l.set i a).get? i = some a := by
  rw [List.get?_set_eq, h]
  rfl

/-- The single-flight invariant: the result cell only ever holds the
resolver's result and is filled by exactly one invocation; before it is
filled nothing has been invoked and nobody has finished; every finished
caller carries the resolver's result; a running caller owns the mutex and
runs before the result is filled. -/
def SFInv {R : Type} (b : R) (s : SFState R) : Prop :=
  (∀ r, s.done = some r → r = b ∧ s.calls = 1) ∧
  (s.done = none → s.calls = 0 ∧
    ∀ i r, s.threads.get? i ≠ some (.finished r)) ∧
  (∀ i r, s.threads.get? i = some (.finished r) → r = b) ∧
  (∀ i, s.threads.get? i = some .running → s.runner = some i ∧ s.done = none)

theorem sfInv_init (R : Type) (b : R) (n : Nat) : SFInv b (sfInit R n) := by
  refine ⟨?_, ?_, ?_, ?_⟩
  · intro r h
    simp [sfInit] at h
  · intro _
    refine ⟨rfl, ?_⟩
    intro i r h
    rcases Nat.lt_or_ge i n with hi | hi
    · rw [List.get?_eq_get (by simpa [sfInit] using hi)] at h
      simp [sfInit] at h
    · rw [List.get?_eq_none.mpr (by simpa [sfInit] using hi)] at h
      simp at h
  · intro i r h
    rcases Nat.lt_or_ge i n with hi | hi
    · rw [List.get?_eq_get (by simpa [sfInit] using hi)] at h
      simp [sfInit] at h
    · rw [List.get?_eq_none.mpr (by simpa [sfInit] using hi)] at h
      simp at h
  · intro i h
    rcases Nat.lt_or_ge i n with hi | hi
    · rw [List.get?_eq_get (by simpa [sfInit] using hi)] at h
      simp [sfInit] at h
    · rw [List.get?_eq_none.mpr (by simpa [sfInit] using hi)] at h
      simp at h

theorem sfInv_step {R : Type} {b : R} {s s' : SFState R}
    (hstep : SFStep b s s') (hinv : SFInv b s) : SFInv b s' := by
  obtain ⟨inv1, inv2, inv3, inv4⟩ := hinv
  cases hstep with
  | hitDone t r ht hd =>
      obtain ⟨hrb, hcalls⟩ := inv1 r hd
      refine ⟨?_, ?_, ?_, ?_⟩
      · intro r' h
        exact inv1 r' h
      · intro h
        rw [h] at hd
        exact absurd hd (by simp)
      · intro i r' h
        by_cases hit : t = i
        · subst hit
          rw [get?_set_self _ _ _ _ ht] at h
          have : TState.finished r = TState.finished r' := Option.some.inj h
          cases this
          exact hrb
        · rw [List.get?_set_ne _ _ hit] at h
          exact inv3 i r' h
      · intro i h
        by_cases hit : t = i
        · subst hit
          rw [get?_set_self _ _ _ _ ht] at h
          simp at h
        · rw [List.get?_set_ne _ _ hit] at h
          exact inv4 i h
  | enter t ht hd hr =>
      refine ⟨?_, ?_, ?_, ?_⟩
      · intro r' h
        exact inv1 r' h
      · intro _
        refine ⟨(inv2 hd).1, ?_⟩
        intro i r' h
        by_cases hit : t = i
        · subst hit
          rw [get?_set_self _ _ _ _ ht] at h
          simp at h
        · rw [List.get?_set_ne _ _ hit] at h
          exact (inv2 hd).2 i r' h
      · intro i r' h
        by_cases hit : t = i
        · subst hit
          rw [get?_set_self _ _ _ _ ht] at h
          simp at h
        · rw [List.get?_set_ne _ _ hit] at h
          exact inv3 i r' h
      · intro i h
        by_cases hit : t = i
        · subst hit
          exact ⟨rfl, hd⟩
        · rw [List.get?_set_ne _ _ hit] at h
          have := (inv4 i h).1
          rw [hr] at this
          exact absurd this (by simp)
  | block t ht hd hr =>
      refine ⟨?_, ?_, ?_, ?_⟩
      · intro r' h
        exact inv1 r' h
      · intro _
        refine ⟨(inv2 hd).1, ?_⟩
        intro i r' h
        by_cases hit : t = i
        · subst hit
          rw [get?_set_self _ _ _ _ ht] at h
          simp at h
        · rw [List.get?_set_ne _ _ hit] at h
          exact (inv2 hd).2 i r' h
      · intro i r' h
        by_cases hit : t = i
        · subst hit
          rw [get?_set_self _ _ _ _ ht] at h
          simp at h
        · rw [List.get?_set_ne _ _ hit] at h
          exact inv3 i r' h
      · intro i h
        by_cases hit : t = i
        · subst hit
          rw [get?_set_self _ _ _ _ ht] at h
          simp at h
        · rw [List.get?_set_ne _ _ hit] at h
          exact inv4 i h
  | run t ht hr =>
      have hd : s.done = none := (inv4 t ht).2
      have hcalls : s.calls = 0 := (inv2 hd).1
      refine ⟨?_, ?_, ?_, ?_⟩
      · intro r' h
        have : r' = b := by
          have := Option.some.inj h
          exact this.symm
        exact ⟨this, by simp [hcalls]⟩
      · intro h
        exact absurd h (by simp)
      · intro i r' h
        by_cases hit : t = i
        · subst hit
          rw [get?_set_self _ _ _ _ ht] at h
          have : TState.finished b = TState.finished r' := Option.some.inj h
          cases this
          rfl
        · rw [List.get?_set_ne _ _ hit] at h
          exact inv3 i r' h
      · intro i h
        by_cases hit : t = i
        · subst hit
          rw [get?_set_self _ _ _ _ ht] at h
          simp at h
        · rw [List.get?_set_ne _ _ hit] at h
          have h1 := (inv4 i h).1
          rw [hr] at h1
          have : t = i := by
            exact Option.some.inj h1
          exact absurd this hit
  | wake t r ht hd =>
      obtain ⟨hrb, hcalls⟩ := inv1 r hd
      refine ⟨?_, ?_, ?_, ?_⟩
      · intro r' h
        exact inv1 r' h
      · intro h
        rw [h] at hd
        exact absurd hd (by simp)
      · intro i r' h
        by_cases hit : t = i
        · subst hit
          rw [get?_set_self _ _ _ _ ht] at h
          have : TState.finished r = TState.finished r' := Option.some.inj h
          cases this
          exact hrb
        · rw [List.get?_set_ne _ _ hit] at h
          exact inv3 i r' h
      · intro i h
        by_cases hit : t = i
        · subst hit
          rw [get?_set_self _ _ _ _ ht] at h
          simp at h
        · rw [List.get?_set_ne _ _ hit] at h
          exact inv4 i h

theorem sfStep_length {R : Type} {b : R} {s s' : SFState R}
    (hstep : SFStep b s s') : s'.threads.length = s.threads.length := by
  cases hstep <;> simp

theorem sfReach_inv_length {R : Type} {b : R} {n : Nat} {s : SFState R}
    (h : Relation.ReflTransGen (SFStep b) (sfInit R n) s) :
    SFInv b s ∧ s.threads.length = n := by
  induction h with
  | refl => exact ⟨sfInv_init R b n, by simp [sfInit]⟩
  | tail _ hstep ih =>
      exact ⟨sfInv_step hstep ih.1, (sfStep_length hstep).trans ih.2⟩

/-- C1: for one entry instance with `n ≥ 1` concurrent callers (each driving
the entry's once guard through any interleaving of the fast path, mutex
acquisition, resolver execution, and wake-up), once every caller has
finished, the resolver has been invoked exactly once and every caller —
whether it raced the resolution or arrived after it — received the identical
result, never a partial one (results only ever flow out of the atomically
published `done` cell). -/
theorem C1_single_flight {R : Type} (b : R) (n : Nat) (s : SFState R)
    (hreach : Relation.ReflTransGen (SFStep b) (sfInit R n) s)
    (hdone : ∀ t ∈ s.threads, ∃ r, t = .finished r) (hn : 1 ≤ n) :
    s.calls = 1 ∧ ∀ t ∈ s.threads, t = TState.finished b := by
  obtain ⟨⟨inv1, inv2, inv3, _⟩, hlen⟩ := sfReach_inv_length hreach
  have hne : s.threads ≠ [] := by
    intro h
    rw [h] at hlen
    simp at hlen
    omega
  have hall : ∀ t ∈ s.threads, t = TState.finished b := by
    intro t ht
    obtain ⟨r, hr⟩ := hdone t ht
    obtain ⟨i, hi⟩ := List.mem_iff_get?.mp ht
    have : r = b := inv3 i r (by rw [hi, hr])
    rw [hr, this]
  refine ⟨?_, hall⟩
  obtain ⟨t0, ht0⟩ := List.exists_mem_of_ne_nil s.threads hne
  have hfin : t0 = TState.finished b := hall t0 ht0
  obtain ⟨i, hi⟩ := List.mem_iff_get?.mp ht0
  cases hd : s.done with
  | none =>
      exact absurd (by rw [hi, hfin]) ((inv2 hd).2 i b)
  | some r => exact (inv1 r hd).2

/-- A complete concrete interleaving of two concurrent callers: caller 0
acquires the once, caller 1 blocks on it, caller 0 runs the resolver and
publishes the result, caller 1 wakes and reads it. -/
def sF : SFState Nat :=
  { done := some 42, runner := none,
    threads := [TState.finished 42, TState.finished 42], calls := 1 }

theorem C1_single_flight_witness :
    sF.calls = 1 ∧ ∀ t ∈ sF.threads, t = TState.finished 42 := by
  refine C1_single_flight 42 2 sF ?_ ?_ (by decide)
  · refine Relation.ReflTransGen.head
      (SFStep.enter (sfInit Nat 2) 0 rfl rfl rfl) ?_
    refine Relation.ReflTransGen.head
      (SFStep.block _ 1 rfl rfl (by decide)) ?_
    refine Relation.ReflTransGen.head
      (SFStep.run _ 0 rfl rfl) ?_
    refine Relation.ReflTransGen.head
      (SFStep.wake _ 1 42 rfl rfl) ?_
    exact Relation.ReflTransGen.refl
  · intro t ht
    simp only [sF, List.mem_cons, List.mem_singleton] at ht
    rcases ht with h | h | h
    · exact ⟨42, h⟩
    · exact ⟨42, h⟩
    · exact absurd h (List.not_mem_nil t)

/-! ## Claim C10: the intrusive circular list at the pointer level

`listNode` (lru.go 138-168) is embedded with nodes identified by numeric
ids: the sentinel (the embedded `LRU.list` field) is id 0, live nodes have
positive ids, and the two raw pointer fields become id-indexed maps with
`none` modelling a nil pointer.  Each operation performs the source's pointer
writes in source order. -/

structure Ring where
  next : Nat → Option Nat
  prev : Nat → Option Nat

def setNext (r : Ring) (a : Nat) (v : Option Nat) : Ring :=
  { r with next := Function.update r.next a v }

def setPrev (r : Ring) (a : Nat) (v : Option Nat) : Ring :=
  { r with prev := Function.update r.prev a v }

/-- `addTo` (lru.go 143-148): `l.next = root.next; l.prev = root;
l.prev.next = l; l.next.prev = l` — four sequential pointer writes, the last
two reading the just-written `l.prev` and `l.next`. -/
def Ring.addTo (r : Ring) (l root : Nat) : Ring :=
  let r1 := setNext r l (r.next root)
  let r2 := setPrev r1 l (some root)
  let r3 := match r2.prev l with
    | some p => setNext r2 p (some l)
    | none => r2
  match r3.next l with
  | some q => setPrev r3 q (some l)
  | none => r3

/-- `remove` (lru.go 151-154): `l.prev.next = l.next; l.next.prev = l.prev`,
the second write reading the state after the first. -/
def Ring.remove (r : Ring) (l : Nat) : Ring :=
  let r1 := match r.prev l with
    | some p => setNext r p (r.next l)
    | none => r
  match r1.next l with
  | some q => setPrev r1 q (r1.prev l)
  | none => r1

/-- `purge` (lru.go 157-160): `remove`, then nil out both pointers. -/
def Ring.purge (r : Ring) (l : Nat) : Ring :=
  let r1 := r.remove l
  setPrev (setNext r1 l none) l none

/-- `mtf` (lru.go 163-168): no-op when `l` is already `root.next`, otherwise
`remove` then `addTo`. -/
def Ring.mtf (r : Ring) (l root : Nat) : Ring :=
  if r.next root = some l then r else (r.remove l).addTo l root

/-- The ring primed by `New` (lru.go 57): both sentinel pointers point at the
sentinel itself, every other pointer is nil. -/
def newRing : Ring :=
  { next := fun a => if a = 0 then some 0 else none,
    prev := fun a => if a = 0 then some 0 else none }

/-- `linked r a xs z`: starting at node `a`, the `next` pointers run exactly
through `xs` and then reach `z`, with `prev` pointers inverse along the way. -/
def linked (r : Ring) : Nat → List Nat → Nat → Prop
  | a, [], z => r.next a = some z ∧ r.prev z = some a
  | a, x :: xs, z => r.next a = some x ∧ r.prev x = some a ∧ linked r x xs z

instance linkedDec (r : Ring) :
    (a : Nat) → (xs : List Nat) → (z : Nat) → Decidable (linked r a xs z)
  | _, [], _ => by unfold linked; infer_instance
  | a, x :: xs, z => by
      unfold linked
      have := linkedDec r x xs z
      infer_instance

/-- The ring shape invariant: following `next` from the sentinel visits the
live nodes `l` exactly once each (the sentinel is not among them, nothing
repeats) and returns to the sentinel, with `prev` the pointwise inverse. -/
def ringRepr (l : List Nat) (r : Ring) : Prop :=
  linked r 0 l 0 ∧ (0 :: l).Nodup

instance (l : List Nat) (r : Ring) : Decidable (ringRepr l r) := by
  unfold ringRepr
  infer_instance

theorem linked_congr {r r' : Ring} :
    ∀ {a : Nat} {xs : List Nat} {z : Nat},
    r'.next a = r.next a →
    (∀ x ∈ xs, r'.next x = r.next x ∧ r'.prev x = r.prev x) →
    r'.prev z = r.prev z →
    linked r a xs z → linked r' a xs z
  | a, [], z, hna, _, hpz, h => by
      unfold linked at h ⊢
      rw [hna, hpz]
      exact h
  | a, x :: xs, z, hna, hxs, hpz, h => by
      unfold linked at h ⊢
      obtain ⟨h1, h2, h3⟩ := h
      refine ⟨by rw [hna]; exact h1,
        by rw [(hxs x (List.mem_cons_self x xs)).2]; exact h2, ?_⟩
      exact linked_congr (hxs x (List.mem_cons_self x xs)).1
        (fun u hu => hxs u (List.mem_cons_of_mem x hu)) hpz h3

theorem linked_nil {r : Ring} {a z : Nat} :
    linked r a [] z ↔ (r.next a = some z ∧ r.prev z = some a) := Iff.rfl

theorem linked_cons {r : Ring} {a x z : Nat} {xs : List Nat} :
    linked r a (x :: xs) z ↔
      (r.next a = some x ∧ r.prev x = some a ∧ linked r x xs z) := Iff.rfl

theorem linked_append {r : Ring} :
    ∀ (xs : List Nat) {a y z : Nat} (ys : List Nat),
    linked r a (xs ++ y :: ys) z ↔ (linked r a xs y ∧ linked r y ys z)
  | [], a, y, z, ys => by
      rw [List.nil_append, linked_cons, linked_nil]
      constructor
      · rintro ⟨h1, h2, h3⟩
        exact ⟨⟨h1, h2⟩, h3⟩
      · rintro ⟨⟨h1, h2⟩, h3⟩
        exact ⟨h1, h2, h3⟩
  | u :: xs, a, y, z, ys => by
      rw [List.cons_append, linked_cons, linked_cons, linked_append xs ys]
      tauto

theorem linked_last {r : Ring} :
    ∀ {xs : List Nat} {a z : Nat}, linked r a xs z →
    ∃ p, (a :: xs).getLast? = some p ∧ r.next p = some z ∧ r.prev z = some p
  | [], a, z, h => ⟨a, rfl, h.1, h.2⟩
  | x :: xs, a, z, h => by
      obtain ⟨_, _, h3⟩ := h
      obtain ⟨p, hp, hnp, hpz⟩ := linked_last h3
      exact ⟨p, by rw [List.getLast?_cons_cons]; exact hp, hnp, hpz⟩

/-- The canonical form of `remove` when the removed node's two pointers are
known: splice `p → q` and `q ← p`. -/
theorem remove_eq {r : Ring} {x p q : Nat} (hpx : r.prev x = some p)
    (hqx : r.next x = some q) (hpq : p ≠ x) :
    r.remove x = setPrev (setNext r p (some q)) q (some p) := by
  unfold Ring.remove
  rw [hpx]
  simp only [hqx]
  have h1 : (setNext r p (some q)).next x = some q := by
    unfold setNext
    simp only [Function.update]
    rw [dif_neg (by exact fun h => hpq (by simpa using h.symm))]
    exact hqx
  have h2 : (setNext r p (some q)).prev x = some p := hpx
  rw [h1, h2]

theorem setNext_next_self (r : Ring) (a : Nat) (v : Option Nat) :
    (setNext r a v).next a = v := by
  simp [setNext]

theorem setNext_next_ne (r : Ring) (a : Nat) (v : Option Nat) (b : Nat)
    (h : b ≠ a) : (setNext r a v).next b = r.next b := by
  simp [setNext, Function.update_noteq h]

theorem setNext_prev (r : Ring) (a : Nat) (v : Option Nat) (b : Nat) :
    (setNext r a v).prev b = r.prev b := rfl

theorem setPrev_prev_self (r : Ring) (a : Nat) (v : Option Nat) :
    (setPrev r a v).prev a = v := by
  simp [setPrev]

theorem setPrev_prev_ne (r : Ring) (a : Nat) (v : Option Nat) (b : Nat)
    (h : b ≠ a) : (setPrev r a v).prev b = r.prev b := by
  simp [setPrev, Function.update_noteq h]

theorem setPrev_next (r : Ring) (a : Nat) (v : Option Nat) (b : Nat) :
    (setPrev r a v).next b = r.next b := rfl

/-- `addTo` at the sentinel with a fresh node extends the ring at the head. -/
theorem ringRepr_addTo {r : Ring} {l : List Nat} {x : Nat}
    (h : ringRepr l r) (hx0 : x ≠ 0) (hxl : x ∉ l) :
    ringRepr (x :: l) (r.addTo x 0) := by
  obtain ⟨hlink, hnd⟩ := h
  have h0l : (0 : Nat) ∉ l := (List.nodup_cons.mp hnd).1
  cases l with
  | nil =>
      obtain ⟨hn0, hp0⟩ := linked_nil.mp hlink
      have heq : r.addTo x 0 =
          setPrev (setNext (setPrev (setNext r x (some 0)) x (some 0))
            0 (some x)) 0 (some x) := by
        unfold Ring.addTo
        rw [hn0]
        simp only [setPrev_prev_self, setPrev_next,
          setNext_next_ne _ _ _ _ hx0, setNext_next_self]
      rw [heq]
      refine ⟨?_, by simp [Ne.symm hx0]⟩
      rw [linked_cons, linked_nil]
      refine ⟨?_, ?_, ?_, ?_⟩
      · rw [setPrev_next, setNext_next_self]
      · rw [setPrev_prev_ne _ _ _ _ hx0, setNext_prev, setPrev_prev_self]
      · rw [setPrev_next, setNext_next_ne _ _ _ _ hx0, setPrev_next,
          setNext_next_self]
      · rw [setPrev_prev_self]
  | cons y l' =>
      obtain ⟨hn0, hpy, hrest⟩ := linked_cons.mp hlink
      have hxy : x ≠ y := fun h => hxl (h ▸ List.mem_cons_self y l')
      have hy0 : y ≠ 0 := fun h => h0l (h ▸ List.mem_cons_self y l')
      have hyl' : y ∉ l' := (List.nodup_cons.mp (List.nodup_cons.mp hnd).2).1
      have hxl' : x ∉ l' := fun h => hxl (List.mem_cons_of_mem y h)
      have h0l' : (0 : Nat) ∉ l' := fun h => h0l (List.mem_cons_of_mem y h)
      have heq : r.addTo x 0 =
          setPrev (setNext (setPrev (setNext r x (some y)) x (some 0))
            0 (some x)) y (some x) := by
        unfold Ring.addTo
        rw [hn0]
        simp only [setPrev_prev_self, setPrev_next,
          setNext_next_ne _ _ _ _ hx0, setNext_next_self]
      rw [heq]
      constructor
      · rw [linked_cons]
        refine ⟨?_, ?_, ?_⟩
        · rw [setPrev_next, setNext_next_self]
        · rw [setPrev_prev_ne _ _ _ _ hxy, setNext_prev, setPrev_prev_self]
        · rw [linked_cons]
          refine ⟨?_, ?_, ?_⟩
          · rw [setPrev_next, setNext_next_ne _ _ _ _ hx0, setPrev_next,
              setNext_next_self]
          · rw [setPrev_prev_self]
          · -- the inner chain y → l' → 0 is untouched
            refine linked_congr ?_ ?_ ?_ hrest
            · rw [setPrev_next, setNext_next_ne _ _ _ _ hy0, setPrev_next,
                setNext_next_ne _ _ _ _ (Ne.symm hxy)]
            · intro u hu
              have hu0 : u ≠ 0 := fun h => h0l' (h ▸ hu)
              have hux : u ≠ x := fun h => hxl' (h ▸ hu)
              have huy : u ≠ y := fun h => hyl' (h ▸ hu)
              constructor
              · rw [setPrev_next, setNext_next_ne _ _ _ _ hu0, setPrev_next,
                  setNext_next_ne _ _ _ _ hux]
              · rw [setPrev_prev_ne _ _ _ _ huy, setNext_prev,
                  setPrev_prev_ne _ _ _ _ hux, setNext_prev]
            · rw [setPrev_prev_ne _ _ _ _ (Ne.symm hy0), setNext_prev,
                setPrev_prev_ne _ _ _ _ (Ne.symm hx0), setNext_prev]
      · rw [List.nodup_cons] at hnd ⊢
        refine ⟨?_, ?_⟩
        · intro hmem
          rcases List.mem_cons.mp hmem with h | h
          · exact hx0 h.symm
          · exact hnd.1 h
        · rw [List.nodup_cons]
          exact ⟨hxl, hnd.2⟩

/-- Splicing the removed node's predecessor to its successor re-links the
chain around it.  `p` is the node before `x` (the last of `a :: l1`), `q` the
node after it (the head of `l2`, or the sentinel 0 when `x` is last). -/
theorem linked_remove_aux {r : Ring} {x q p : Nat} {l2 : List Nat}
    (hq : (l2 = [] ∧ q = 0) ∨ (∃ l2', l2 = q :: l2')) :
    ∀ (l1 : List Nat) (a : Nat),
    linked r a (l1 ++ x :: l2) 0 →
    (a :: (l1 ++ x :: l2)).Nodup →
    (∀ u ∈ l1 ++ x :: l2, u ≠ 0) →
    (a :: l1).getLast? = some p →
    linked (setPrev (setNext r p (some q)) q (some p)) a (l1 ++ l2) 0
  | [], a, hlink, hnd, h0, hlast => by
      rw [List.getLast?_singleton] at hlast
      obtain rfl := Option.some.inj hlast
      rw [List.nil_append] at hlink hnd h0 ⊢
      obtain ⟨hax, hpxa, hxl2⟩ := linked_cons.mp hlink
      rcases hq with ⟨hl2, hq0⟩ | ⟨l2', hl2⟩
      · subst hl2
        subst hq0
        rw [linked_nil]
        constructor
        · rw [setPrev_next, setNext_next_self]
        · rw [setPrev_prev_self]
      · subst hl2
        obtain ⟨hxq, hpqx, hql⟩ := linked_cons.mp hxl2
        have hanotin : a ∉ x :: q :: l2' := (List.nodup_cons.mp hnd).1
        have haq : a ≠ q := fun h => hanotin (by
          rw [h]
          exact List.mem_cons_of_mem x (List.mem_cons_self q l2'))
        have hq0 : q ≠ 0 :=
          h0 q (List.mem_cons_of_mem x (List.mem_cons_self q l2'))
        have hqnotin : q ∉ l2' :=
          (List.nodup_cons.mp
            (List.nodup_cons.mp (List.nodup_cons.mp hnd).2).2).1
        rw [linked_cons]
        refine ⟨?_, ?_, ?_⟩
        · rw [setPrev_next, setNext_next_self]
        · rw [setPrev_prev_self]
        · refine linked_congr ?_ ?_ ?_ hql
          · rw [setPrev_next, setNext_next_ne _ _ _ _ (Ne.symm haq)]
          · intro v hv
            have hvp : v ≠ a := fun h =>
              hanotin (h ▸ List.mem_cons_of_mem x
                (List.mem_cons_of_mem q hv))
            have hvq : v ≠ q := fun h => hqnotin (h ▸ hv)
            exact ⟨by rw [setPrev_next, setNext_next_ne _ _ _ _ hvp],
              by rw [setPrev_prev_ne _ _ _ _ hvq, setNext_prev]⟩
          · rw [setPrev_prev_ne _ _ _ _ (Ne.symm hq0), setNext_prev]
  | u :: l1', a, hlink, hnd, h0, hlast => by
      rw [List.cons_append] at hlink hnd h0
      obtain ⟨hau, hpua, hrest⟩ := linked_cons.mp hlink
      rw [List.getLast?_cons_cons] at hlast
      have hpmem : p ∈ u :: l1' := by
        have := List.mem_of_mem_getLast? hlast
        exact this
      have hamem : a ∉ u :: l1' ++ x :: l2 := (List.nodup_cons.mp hnd).1
      have hap : a ≠ p := fun h => by
        subst h
        exact hamem (by
          rcases List.mem_cons.mp hpmem with h | h
          · exact h ▸ List.mem_cons_self _ _
          · exact List.mem_cons_of_mem u (List.mem_append_left _ h))
      have huq : u ≠ q := by
        rcases hq with ⟨_, hq0⟩ | ⟨l2', hl2⟩
        · subst hq0
          exact h0 u (List.mem_cons_self _ _)
        · subst hl2
          intro h
          subst h
          have : u ∉ l1' ++ x :: u :: l2' :=
            (List.nodup_cons.mp (List.nodup_cons.mp hnd).2).1
          exact this (List.mem_append_right _
            (List.mem_cons_of_mem x (List.mem_cons_self _ _)))
      rw [List.cons_append, linked_cons]
      refine ⟨?_, ?_, ?_⟩
      · rw [setPrev_next, setNext_next_ne _ _ _ _ hap]
        exact hau
      · rw [setPrev_prev_ne _ _ _ _ huq, setNext_prev]
        exact hpua
      · exact linked_remove_aux hq l1' u hrest (List.nodup_cons.mp hnd).2
          (fun v hv => h0 v (List.mem_cons_of_mem u hv)) hlast

/-- `remove` deletes exactly the removed node from the ring. -/
theorem ringRepr_remove {r : Ring} {l : List Nat} {x : Nat}
    (h : ringRepr l r) (hx : x ∈ l) :
    ringRepr (l.erase x) (r.remove x) := by
  obtain ⟨hlink, hnd⟩ := h
  have h0l : (0 : Nat) ∉ l := (List.nodup_cons.mp hnd).1
  obtain ⟨l1, l2, rfl⟩ := List.append_of_mem hx
  have hndl : (l1 ++ x :: l2).Nodup := (List.nodup_cons.mp hnd).2
  have hx1 : x ∉ l1 := fun h =>
    List.disjoint_of_nodup_append hndl h (List.mem_cons_self _ _)
  have herase : (l1 ++ x :: l2).erase x = l1 ++ l2 := by
    rw [List.erase_append_right _ hx1, List.erase_cons_head]
  obtain ⟨hseg, hxt⟩ := (linked_append l1 (a := 0) (y := x) l2).mp hlink
  obtain ⟨p, hplast, hnpx, hpx⟩ := linked_last hseg
  have hpmem : p ∈ 0 :: l1 := List.mem_of_mem_getLast? hplast
  have hpq : p ≠ x := by
    intro h
    subst h
    rcases List.mem_cons.mp hpmem with h | h
    · exact h0l (h ▸ hx)
    · exact hx1 h
  have h0s : ∀ u ∈ l1 ++ x :: l2, u ≠ 0 := fun u hu h =>
    h0l (h ▸ hu)
  rw [herase]
  cases hl2 : l2 with
  | nil =>
      subst hl2
      have hqx : r.next x = some 0 := (linked_nil.mp hxt).1
      rw [remove_eq hpx hqx hpq]
      refine ⟨linked_remove_aux (Or.inl ⟨rfl, rfl⟩) l1 0 hlink hnd h0s
        hplast, ?_⟩
      rw [List.append_nil]
      rw [List.append_nil] at herase
      rw [← herase]
      exact (List.nodup_cons.mp hnd).2.erase x |>.cons (by
        intro hmem
        exact h0l (List.mem_of_mem_erase hmem))
  | cons y l2' =>
      subst hl2
      have hqx : r.next x = some y := (linked_cons.mp hxt).1
      rw [remove_eq hpx hqx hpq]
      refine ⟨linked_remove_aux (Or.inr ⟨l2', rfl⟩) l1 0 hlink hnd h0s
        hplast, ?_⟩
      rw [← herase]
      exact ((List.nodup_cons.mp hnd).2.erase x).cons (by
        intro hmem
        exact h0l (List.mem_of_mem_erase hmem))

/-- `purge` removes the node and nils its own pointers, which the remaining
ring never reads. -/
theorem ringRepr_purge {r : Ring} {l : List Nat} {x : Nat}
    (h : ringRepr l r) (hx : x ∈ l) :
    ringRepr (l.erase x) (r.purge x) := by
  obtain ⟨hlink, hnd⟩ := ringRepr_remove h hx
  have h0x : x ≠ 0 := fun h0 =>
    (List.nodup_cons.mp h.2).1 (h0 ▸ hx)
  have hxe : x ∉ l.erase x := fun hmem =>
    (((List.nodup_cons.mp h.2).2).mem_erase_iff.mp hmem).1 rfl
  unfold Ring.purge
  refine ⟨?_, hnd⟩
  refine linked_congr ?_ ?_ ?_ hlink
  · rw [setPrev_next, setNext_next_ne _ _ _ _ (Ne.symm h0x)]
  · intro u hu
    have hux : u ≠ x := fun h' => hxe (h' ▸ hu)
    exact ⟨by rw [setPrev_next, setNext_next_ne _ _ _ _ hux],
      by rw [setPrev_prev_ne _ _ _ _ hux, setNext_prev]⟩
  · rw [setPrev_prev_ne _ _ _ _ (Ne.symm h0x), setNext_prev]

/-- `mtf` moves a linked node to the head (a no-op when it is the head —
then `x :: l.erase x` is literally `l` again). -/
theorem ringRepr_mtf {r : Ring} {l : List Nat} {x : Nat}
    (h : ringRepr l r) (hx : x ∈ l) :
    ringRepr (x :: l.erase x) (r.mtf x 0) := by
  have h0x : x ≠ 0 := fun h0 =>
    (List.nodup_cons.mp h.2).1 (h0 ▸ hx)
  have hxe : x ∉ l.erase x := fun hmem =>
    (((List.nodup_cons.mp h.2).2).mem_erase_iff.mp hmem).1 rfl
  unfold Ring.mtf
  by_cases hh : r.next 0 = some x
  · rw [if_pos hh]
    cases l with
    | nil => cases hx
    | cons y l' =>
        have hy : y = x := by
          have h1 := (linked_cons.mp h.1).1
          rw [hh] at h1
          exact (Option.some.inj h1).symm
        subst hy
        rw [List.erase_cons_head]
        exact h
  · rw [if_neg hh]
    exact ringRepr_addTo (ringRepr_remove h hx) h0x hxe

/-- A represented ring is empty iff the sentinel's successor is the sentinel
itself. -/
theorem ringRepr_empty_iff {r : Ring} {l : List Nat} (h : ringRepr l r) :
    l = [] ↔ r.next 0 = some 0 := by
  constructor
  · rintro rfl
    exact (linked_nil.mp h.1).1
  · intro h0
    cases l with
    | nil => rfl
    | cons y l' =>
        have h1 := (linked_cons.mp h.1).1
        rw [h0] at h1
        have hy : (0 : Nat) = y := Option.some.inj h1
        exact absurd (hy ▸ List.mem_cons_self y l')
          (List.nodup_cons.mp h.2).1

theorem linked_next_inverse {r : Ring} :
    ∀ {xs : List Nat} {a z : Nat}, linked r a xs z →
    ∀ u ∈ a :: xs, ∃ b ∈ xs ++ [z], r.next u = some b ∧ r.prev b = some u
  | [], a, z, h, u, hu => by
      have hua : u = a := by simpa using hu
      subst hua
      exact ⟨z, by simp, h.1, h.2⟩
  | x :: xs, a, z, h, u, hu => by
      obtain ⟨h1, h2, h3⟩ := linked_cons.mp h
      rcases List.mem_cons.mp hu with hua | hux
      · subst hua
        exact ⟨x, by simp, h1, h2⟩
      · obtain ⟨b, hb, hnb, hpb⟩ := linked_next_inverse h3 u hux
        refine ⟨b, ?_, hnb, hpb⟩
        rw [List.cons_append]
        exact List.mem_cons_of_mem x hb

theorem linked_prev_inverse {r : Ring} :
    ∀ {xs : List Nat} {a z : Nat}, linked r a xs z →
    ∀ u ∈ xs ++ [z], ∃ c ∈ a :: xs, r.prev u = some c ∧ r.next c = some u
  | [], a, z, h, u, hu => by
      have huz : u = z := by simpa using hu
      subst huz
      exact ⟨a, by simp, h.2, h.1⟩
  | x :: xs, a, z, h, u, hu => by
      obtain ⟨h1, h2, h3⟩ := linked_cons.mp h
      rw [List.cons_append] at hu
      rcases List.mem_cons.mp hu with hux | hur
      · subst hux
        exact ⟨a, List.mem_cons_self a _, h2, h1⟩
      · obtain ⟨c, hc, hpc, hnc⟩ := linked_prev_inverse h3 u hur
        exact ⟨c, List.mem_cons_of_mem a hc, hpc, hnc⟩

/-- In a represented ring every node's `next` and `prev` pointers stay inside
the ring and are mutually inverse: `n.next.prev = n` and `n.prev.next = n`. -/
theorem ringRepr_inverse {r : Ring} {l : List Nat} (h : ringRepr l r) :
    ∀ u ∈ 0 :: l,
      (∃ b ∈ 0 :: l, r.next u = some b ∧ r.prev b = some u) ∧
      (∃ c ∈ 0 :: l, r.prev u = some c ∧ r.next c = some u) := by
  intro u hu
  constructor
  · obtain ⟨b, hb, hnb, hpb⟩ := linked_next_inverse h.1 u hu
    refine ⟨b, ?_, hnb, hpb⟩
    rcases List.mem_append.mp hb with h' | h'
    · exact List.mem_cons_of_mem 0 h'
    · simp only [List.mem_singleton] at h'
      exact h' ▸ List.mem_cons_self 0 l
  · have hu' : u ∈ l ++ [0] := by
      rcases List.mem_cons.mp hu with h' | h'
      · subst h'
        exact List.mem_append_right l (List.mem_singleton_self 0)
      · exact List.mem_append_left _ h'
    obtain ⟨c, hc, hpc, hnc⟩ := linked_prev_inverse h.1 u hu'
    exact ⟨c, hc, hpc, hnc⟩

/-- C10: the eviction ring is well-formed whenever the structural guard is
not held.  `ringRepr l r` states that starting from the sentinel (id 0, never
among the live nodes `l`, hence never removed) and following `next` pointers
visits every live node exactly once and returns to the sentinel, with
matching `prev` pointers.  The conjuncts: `New`'s priming yields the
well-formed empty ring; `addTo`, `remove`, `purge` and `mtf` each preserve
the shape (with the membership appropriate to their call sites); in a
well-formed ring every node satisfies `n.next.prev = n` and
`n.prev.next = n` with pointers staying inside the ring; and the ring is
empty exactly when the sentinel's `next` is the sentinel itself. -/
theorem C10_ring_wellformed :
    ringRepr [] newRing ∧
    (∀ (r : Ring) (l : List Nat) (x : Nat), ringRepr l r → x ≠ 0 → x ∉ l →
      ringRepr (x :: l) (r.addTo x 0)) ∧
    (∀ (r : Ring) (l : List Nat) (x : Nat), ringRepr l r → x ∈ l →
      ringRepr (l.erase x) (r.remove x)) ∧
    (∀ (r : Ring) (l : List Nat) (x : Nat), ringRepr l r → x ∈ l →
      ringRepr (l.erase x) (r.purge x)) ∧
    (∀ (r : Ring) (l : List Nat) (x : Nat), ringRepr l r → x ∈ l →
      ringRepr (x :: l.erase x) (r.mtf x 0)) ∧
    (∀ (r : Ring) (l : List Nat), ringRepr l r → ∀ u ∈ 0 :: l,
      (∃ b ∈ 0 :: l, r.next u = some b ∧ r.prev b = some u) ∧
      (∃ c ∈ 0 :: l, r.prev u = some c ∧ r.next c = some u)) ∧
    (∀ (r : Ring) (l : List Nat), ringRepr l r →
      (l = [] ↔ r.next 0 = some 0)) :=
  ⟨by decide,
    fun _ _ _ h h0 hl => ringRepr_addTo h h0 hl,
    fun _ _ _ h hx => ringRepr_remove h hx,
    fun _ _ _ h hx => ringRepr_purge h hx,
    fun _ _ _ h hx => ringRepr_mtf h hx,
    fun _ _ h => ringRepr_inverse h,
    fun _ _ h => ringRepr_empty_iff h⟩

theorem C10_ring_wellformed_witness :
    ringRepr [1] (newRing.addTo 1 0) ∧
      ringRepr [2, 1] ((newRing.addTo 1 0).addTo 2 0) ∧
      ringRepr [1, 2] (((newRing.addTo 1 0).addTo 2 0).mtf 1 0) ∧
      ringRepr [2] (((newRing.addTo 1 0).addTo 2 0).purge 1) ∧
      ringRepr [1] (((newRing.addTo 1 0).addTo 2 0).remove 2) :=
  ⟨C10_ring_wellformed.2.1 newRing [] 1 (by decide) (by decide) (by decide),
    C10_ring_wellformed.2.1 (newRing.addTo 1 0) [1] 2 (by decide) (by decide)
      (by decide),
    C10_ring_wellformed.2.2.2.2.1 ((newRing.addTo 1 0).addTo 2 0) [2, 1] 1
      (by decide) (by decide),
    C10_ring_wellformed.2.2.2.1 ((newRing.addTo 1 0).addTo 2 0) [2, 1] 1
      (by decide) (by decide),
    C10_ring_wellformed.2.2.1 ((newRing.addTo 1 0).addTo 2 0) [2, 1] 2
      (by decide) (by decide)⟩

end Cache
